import Mathlib

/-!
Verification of the Adobe1B PDF-collection relevance pipeline
(`src/pdf_processor.rs`) against its natural-language specification.

Strings are modelled as `List Char` (`Str`).  All definitions are
translated from the Rust source; the few definitions that follow the
specification's words instead (for refinement comparisons) say so in
their doc comment.  Rust `str::len` counts UTF-8 bytes, modelled by
`utf8Len`; Rust `char::is_whitespace` is the Unicode `White_Space`
property, modelled by `isWs`.
-/

/-- Character strings, modelled as lists of characters. -/
abbrev Str := List Char

/-- Unicode `White_Space` property (Rust `char::is_whitespace`,
and the `\s` class of the Rust `regex` crate). -/
def isWs (c : Char) : Bool :=
  c.toNat = 0x09 || c.toNat = 0x0A || c.toNat = 0x0B || c.toNat = 0x0C ||
  c.toNat = 0x0D || c.toNat = 0x20 || c.toNat = 0x85 || c.toNat = 0xA0 ||
  c.toNat = 0x1680 || (0x2000 ≤ c.toNat && c.toNat ≤ 0x200A) ||
  c.toNat = 0x2028 || c.toNat = 0x2029 || c.toNat = 0x202F ||
  c.toNat = 0x205F || c.toNat = 0x3000

/-- ASCII fragment of Rust `char::is_alphanumeric`.  All keyword
dictionary entries and all inputs considered in this development are
ASCII, where the two notions agree. -/
def isAlnum (c : Char) : Bool :=
  (('a' ≤ c && c ≤ 'z') || ('A' ≤ c && c ≤ 'Z') || ('0' ≤ c && c ≤ '9'))

/-- ASCII lowercasing (Rust `str::to_lowercase` restricted to ASCII,
which is all this program's dictionary keys and matching need). -/
def lower (l : Str) : Str := l.map Char.toLower

/-- UTF-8 byte length of a string (Rust `str::len`). -/
def utf8Len (l : Str) : Nat := (l.map Char.utf8Size).sum

/-- Strip leading and trailing characters satisfying `p`
(the shape of Rust `str::trim` and `str::trim_matches`). -/
def stripEnds (p : Char → Bool) (l : Str) : Str :=
  ((l.dropWhile p).reverse.dropWhile p).reverse

/-- Rust `str::trim`: strip Unicode whitespace from both ends. -/
def trimChars (l : Str) : Str := stripEnds isWs l

/-- Rust `str::trim_matches(|c| !c.is_alphanumeric())`: strip leading and
trailing non-alphanumeric characters. -/
def stripNonAlnum (l : Str) : Str := stripEnds (fun c => !isAlnum c) l

/-- Split a list at every occurrence of the separator character,
keeping empty segments (Rust `str::split(char)`). -/
def splitChar (sep : Char) : Str → List Str
  | [] => [[]]
  | c :: rest =>
    match splitChar sep rest with
    | [] => if c = sep then [[], []] else [[c]]
    | s :: ss => if c = sep then [] :: s :: ss else (c :: s) :: ss

/-- Split at every occurrence of the two-character separator `"\n\n"`,
leftmost-first and non-overlapping (Rust `str::split("\n\n")`). -/
def splitNlNl : Str → List Str
  | [] => [[]]
  | '\n' :: '\n' :: rest => [] :: splitNlNl rest
  | c :: rest =>
    match splitNlNl rest with
    | [] => [[c]]
    | s :: ss => (c :: s) :: ss

/-- Join a list of strings with a separator string
(Rust `[&str]::join`). -/
def joinSep (sep : Str) : List Str → Str
  | [] => []
  | [p] => p
  | p :: q :: rest => p ++ sep ++ joinSep sep (q :: rest)

/-- Helper for `collapseWs`: the flag records whether a whitespace run
is currently being skipped (its single replacement space was already
emitted). -/
def collapseWsAux : Bool → Str → Str
  | _, [] => []
  | true, c :: rest =>
    if isWs c then collapseWsAux true rest
    else c :: collapseWsAux false rest
  | false, c :: rest =>
    if isWs c then ' ' :: collapseWsAux true rest
    else c :: collapseWsAux false rest

/-- Replace every maximal run of whitespace by a single space: the
effect of `Regex::new(r"\s+").replace_all(text, " ")` in
`clean_extracted_text`. -/
def collapseWs (l : Str) : Str := collapseWsAux false l

/-- Rust `str::lines`: split on `'\n'`, drop one trailing empty line,
and strip a trailing `'\r'` from each line. -/
def linesChars (s : Str) : List Str :=
  let parts := splitChar '\n' s
  let parts2 :=
    if s = [] then []
    else if parts.getLast? = some [] then parts.dropLast else parts
  parts2.map (fun l => if l.getLast? = some '\r' then l.dropLast else l)

/-- Is `needle` a prefix of `hay`? -/
def prefixOfB : Str → Str → Bool
  | [], _ => true
  | _ :: _, [] => false
  | a :: as_, b :: bs => a = b && prefixOfB as_ bs

/-- Substring containment: Rust `str::contains(&str)`. -/
def containsSub (needle : Str) : Str → Bool
  | [] => prefixOfB needle []
  | c :: rest => prefixOfB needle (c :: rest) || containsSub needle rest

/-- `clean_extracted_text` from `pdf_processor.rs`: trim each line, drop
empty lines, join with single spaces, collapse whitespace runs, then
split on `'.'`, trim and drop empty sentences, re-join with `". "`, and
append a final `'.'` unless the collapsed text already ended with one. -/
def clean_extracted_text (raw : Str) : Str :=
  let cleaned := joinSep [' '] (((linesChars raw).map trimChars).filter (fun l => !l.isEmpty))
  let normalized := collapseWs cleaned
  let parts := ((splitChar '.' normalized).map trimChars).filter (fun l => !l.isEmpty)
  joinSep ((r". ").data) parts ++ (if normalized.getLast? = some '.' then [] else ['.'])

/-- The fixed keyword dictionary that `find_relevant_content` uses for
the persona `"travel planner"` (note the duplicated `"itinerary"`). -/
def travelKeywords : List Str :=
  [(r"hotel").data, (r"restaurant").data, (r"itinerary").data,
   (r"transport").data, (r"budget").data, (r"beach").data, (r"coast").data,
   (r"city").data, (r"travel").data, (r"plan").data, (r"friends").data,
   (r"day trip").data, (r"accommodation").data, (r"sightseeing").data,
   (r"tour").data, (r"itinerary").data, (r"flight").data, (r"train").data,
   (r"booking").data, (r"reservation").data]

/-- The fixed keyword dictionary for the persona `"hr professional"`. -/
def hrKeywords : List Str :=
  [(r"form").data, (r"fillable").data, (r"signature").data,
   (r"compliance").data, (r"onboarding").data, (r"field").data,
   (r"text box").data, (r"checkbox").data, (r"dropdown").data,
   (r"required").data, (r"document").data, (r"approval").data,
   (r"electronic").data, (r"sign").data, (r"pdf").data, (r"employee").data,
   (r"new hire").data, (r"paperwork").data, (r"tax form").data,
   (r"contract").data]

/-- The fixed keyword dictionary for the persona `"food contractor"`. -/
def foodKeywords : List Str :=
  [(r"recipe").data, (r"vegetarian").data, (r"buffet").data,
   (r"ingredients").data, (r"preparation").data, (r"gluten-free").data,
   (r"menu").data, (r"dish").data, (r"cooking").data, (r"serving").data,
   (r"allergy").data, (r"dietary").data, (r"vegan").data, (r"meal").data,
   (r"course").data, (r"appetizer").data, (r"main course").data,
   (r"dessert").data, (r"salad").data, (r"soup").data]

/-- The `match persona.to_lowercase().as_str()` dispatch at the top of
`find_relevant_content`: a fixed dictionary for the three known
personas, the empty list for every other persona. -/
def personaDict (persona : Str) : List Str :=
  if lower persona = (r"travel planner").data then travelKeywords
  else if lower persona = (r"hr professional").data then hrKeywords
  else if lower persona = (r"food contractor").data then foodKeywords
  else []

/-- Rust `str::split_whitespace`: split on whitespace runs, no empty
tokens. -/
def splitWhitespaceChars (l : Str) : List Str :=
  (List.splitOnP isWs l).filter (fun t => !t.isEmpty)

/-- The `task_keywords` computation in `find_relevant_content`:
lowercase the task, split on whitespace, strip leading/trailing
non-alphanumeric characters from each token, drop empty tokens.
(No length filter: one- and two-character tokens are kept.) -/
def task_keywords (task : Str) : List Str :=
  ((splitWhitespaceChars (lower task)).map stripNonAlnum).filter (fun t => !t.isEmpty)

/-- The paragraph segmentation inside `find_relevant_content`'s page
loop: split on `"\n\n"` keeping pieces longer than 20 bytes; if that
yields at most two pieces, fall back to groups of three sentences
(sentences split on `'.'` with trimmed length over 15 bytes, groups
re-joined with `". "` plus a final dot, kept when over 50 bytes);
if still empty and the page text exceeds 50 bytes, the whole page text
is the single paragraph. -/
def paragraphsOf (text : Str) : List Str :=
  let dn := (splitNlNl text).filter (fun p => utf8Len p > 20)
  let paras :=
    if dn.length > 2 then dn
    else
      let sentences := (splitChar '.' text).filter (fun s => utf8Len (trimChars s) > 15)
      ((sentences.toChunks 3).map (fun ch => joinSep ((r". ").data) ch ++ ['.'])).filter
        (fun p => utf8Len p > 50)
  if paras.isEmpty && utf8Len text > 50 then [text] else paras

/-- Output record `SubsectionAnalysis` (`models.rs`). -/
structure SubsectionAnalysis where
  document : Str
  refined_text : Str
  page_number : Nat
deriving DecidableEq

/-- Output record `ExtractedSection` (`models.rs`). -/
structure ExtractedSection where
  document : Str
  section_title : Str
  importance_rank : Nat
  page_number : Nat
deriving DecidableEq

/-- The keywords of `kws` contained in the (lowercased) text: the
`keyword_matches` / `task_matches` filters of `find_relevant_content`. -/
def keywordMatches (kws : List Str) (textLower : Str) : List Str :=
  kws.filter (fun kw => containsSub kw textLower)

/-- The relevance score that `find_relevant_content`'s final sort
recomputes on each entry's `refined_text`. -/
def entryScore (kws tks : List Str) (e : SubsectionAnalysis) : Nat :=
  (keywordMatches kws (lower e.refined_text)).length +
    (keywordMatches tks (lower e.refined_text)).length

/-- The page/paragraph collection loop of `find_relevant_content`, in
encounter order: a paragraph is pushed when its lowercased text
contains at least one persona-dictionary keyword **or** at least one
task keyword. -/
def collectRelevant (docName : Str) (pageTexts : List (Nat × Str))
    (kws tks : List Str) : List SubsectionAnalysis :=
  pageTexts.flatMap (fun pt =>
    (paragraphsOf pt.2).filterMap (fun para =>
      if !(keywordMatches kws (lower para)).isEmpty ||
          !(keywordMatches tks (lower para)).isEmpty then
        some ⟨docName, trimChars para, pt.1⟩
      else none))

/-- `find_relevant_content` from `pdf_processor.rs`: collect matching
paragraphs in encounter order, then stable-sort them by descending
recomputed relevance score (`sort_by(|a, b| b_score.cmp(&a_score))`).
Rust's `sort_by` is a stable sort; it is modelled by the stable
`List.insertionSort`, which produces the same list as any stable sort
for this total preorder comparator. -/
def find_relevant_content (docName : Str) (pageTexts : List (Nat × Str))
    (persona task : Str) : List SubsectionAnalysis :=
  (collectRelevant docName pageTexts (personaDict persona) (task_keywords task)).insertionSort
    (fun a b => entryScore (personaDict persona) (task_keywords task) b ≤
      entryScore (personaDict persona) (task_keywords task) a)

/-- Modelled from the spec (§4.5 Keyword Extractor), for refinement
comparison only: lowercase, split on whitespace, strip leading/trailing
non-alphanumerics, discard empty tokens and tokens of length ≤ 2.  The
spec's keyword *set* is represented by this token list; only membership
is used in statements. -/
def spec_keyword_extract (s : Str) : List Str :=
  ((splitWhitespaceChars (lower s)).map stripNonAlnum).filter
    (fun t => !t.isEmpty && t.length > 2)

/-- Rust `Path::with_extension("txt")` on a file name: replace the
portion after the last `'.'` (when a non-empty stem precedes it),
otherwise append `".txt"`.  Used for the debug text file that
`extract_pdf_text` writes next to each decoded PDF. -/
def withExtTxt (f : Str) : Str :=
  (if '.' ∈ f then
    let pre := f.take (f.length - 1 - (f.reverse.indexOf '.'))
    if pre.isEmpty then f else pre
  else f) ++ (r".txt").data

/-- One document of a request, with the outcomes of its external
interactions as data: `pathExists` models `pdf_path.exists()`;
`decode = some pageTexts` models `extract_pdf_text` returning `Ok`
(it returns `Err` exactly when the whole document yields empty text or
cannot be opened); `ocr = some t` models `extract_with_ocr` returning
`Ok(t)`; `captures` is the concatenated sequence of first-capture-group
matches of the five heading regexes over the document's full text
(regex evaluation itself is not embedded). -/
structure RunDoc where
  filename : Str
  pathExists : Bool
  decode : Option (List (Nat × Str))
  ocr : Option Str
  captures : List Str
deriving DecidableEq

/-- The heading loop of `process_pdf_collection` (lines 45–62): each
capture is trimmed, kept when its UTF-8 byte length is `> 3` and
`< 100`, and pushed with `importance_rank = extracted_sections.len() + 1`
and `page_number = 1`. -/
def pushHeadings (filename : Str) : List Str → List ExtractedSection → List ExtractedSection
  | [], acc => acc
  | cand :: rest, acc =>
    if utf8Len (trimChars cand) > 3 && utf8Len (trimChars cand) < 100 then
      pushHeadings filename rest
        (acc ++ [⟨filename, trimChars cand, acc.length + 1, 1⟩])
    else pushHeadings filename rest acc

/-- Result of a whole run: `failure` models `process_pdf_collection`
returning `Err` (PDF not found); `success` carries the output
collections.  `writes` lists the files created, in order (debug `.txt`
files, then the output JSON on success); `ocrLog` records one entry per
`extract_with_ocr` invocation. -/
inductive RunResult where
  | failure (writes ocrLog : List Str) : RunResult
  | success (sections : List ExtractedSection)
      (subsections : List SubsectionAnalysis)
      (writes ocrLog : List Str) : RunResult
deriving DecidableEq

/-- The document loop of `process_pdf_collection`: abort on a missing
PDF; on decode success push headings, collect relevant content, and
write the debug text file; on decode failure invoke OCR once, using its
text as a single synthetic page 1 on success and contributing nothing
on failure.  After the loop, sort sections by `importance_rank`
(stable) and write the output file. -/
def runLoop (persona task outPath : Str) :
    List RunDoc → List ExtractedSection → List SubsectionAnalysis →
      List Str → List Str → RunResult
  | [], secs, subs, writes, ocrLog =>
      .success (secs.insertionSort (fun a b => a.importance_rank ≤ b.importance_rank))
        subs (writes ++ [outPath]) ocrLog
  | d :: rest, secs, subs, writes, ocrLog =>
    if !d.pathExists then .failure writes ocrLog
    else
      match d.decode with
      | some pts =>
          runLoop persona task outPath rest
            (pushHeadings d.filename d.captures secs)
            (subs ++ find_relevant_content d.filename pts persona task)
            (writes ++ [withExtTxt d.filename]) ocrLog
      | none =>
          match d.ocr with
          | some t =>
              runLoop persona task outPath rest secs
                (subs ++ find_relevant_content d.filename [(1, t)] persona task)
                writes (ocrLog ++ [d.filename])
          | none =>
              runLoop persona task outPath rest secs subs writes (ocrLog ++ [d.filename])

/-- `process_pdf_collection` from `pdf_processor.rs`, with the request
already parsed into `docs`, `persona` and `task`. -/
def process_pdf_collection (persona task : Str) (docs : List RunDoc)
    (outPath : Str) : RunResult :=
  runLoop persona task outPath docs [] [] [] []

/-- The subsections a single document contributes (decode branch,
OCR-success branch, or nothing). -/
def docSubs (persona task : Str) (d : RunDoc) : List SubsectionAnalysis :=
  match d.decode with
  | some pts => find_relevant_content d.filename pts persona task
  | none =>
    match d.ocr with
    | some t => find_relevant_content d.filename [(1, t)] persona task
    | none => []

/-- Concrete page text for refutations: one paragraph that contains
task tokens ("a", "trip") but no persona keyword at all. -/
def c1Text : Str :=
  (r"Our trip begins at dawn with a long walk by its shore area.").data

/-- Concrete page text for the C5 refutation: two sentence-chunk
paragraphs, the first matching few keywords, the second matching many. -/
def c5Text : Str :=
  (r"We woke early and watched the calm grey sky. The morning felt slow and very quiet indeed. Breakfast was simple bread with warm milk. We plan the trip with a detailed hotel booking. Our travel budget covers the beach tour. A perfect itinerary makes this trip easy.").data

/-- Sections of a run outcome (a failed run returns none). -/
def resultSections : RunResult → List ExtractedSection
  | .failure _ _ => []
  | .success secs _ _ _ => secs

/-- Subsections of a run outcome. -/
def resultSubsections : RunResult → List SubsectionAnalysis
  | .failure _ _ => []
  | .success _ subs _ _ => subs

/-- Files written by a run, in order. -/
def resultWrites : RunResult → List Str
  | .failure w _ => w
  | .success _ _ w _ => w

/-- OCR invocations performed by a run, in order. -/
def resultOcrLog : RunResult → List Str
  | .failure _ o => o
  | .success _ _ _ o => o

/-- Did the run return `Ok`? -/
def isSuccess : RunResult → Bool
  | .failure _ _ => false
  | .success _ _ _ _ => true

/-- The heading accumulation over the documents of a run, in document
order; only successfully decoded documents contribute captures. -/
def collectSections : List RunDoc → List ExtractedSection → List ExtractedSection
  | [], acc => acc
  | d :: rest, acc =>
    match d.decode with
    | some _ => collectSections rest (pushHeadings d.filename d.captures acc)
    | none => collectSections rest acc

/-- Input document used in witnesses: decodes to a single page whose
text is too short to yield any paragraph, with two heading captures. -/
def wDocA : RunDoc :=
  ⟨(r"a.pdf").data, true, some [(1, (r"Short text here").data)], none,
   [(r"INTRODUCTION").data, (r"OVERVIEW AND NOTES").data]⟩

/-- Input document used in witnesses: the PDF decodes to empty text
(decode failure), and OCR succeeds with a short text. -/
def wDocB : RunDoc :=
  ⟨(r"b.pdf").data, true, none,
   some ((r"Book a hotel for the trip and travel light on the coast today").data), []⟩

/-- Input document used in witnesses: its PDF path does not exist. -/
def wDocMissing : RunDoc := ⟨(r"m.pdf").data, false, none, none, []⟩

/-- Modelled from the spec (§4.6 heading importance ranking), for
refinement comparison only: a heading's score is the count of keyword
occurrences (persona set plus task set, substring containment on
lowercased text) over the subsection entries sharing its document and
page number. -/
def spec_heading_score (personaSet taskSet : List Str)
    (subs : List SubsectionAnalysis) (doc : Str) (page : Nat) : Nat :=
  (((subs.filter (fun e => decide (e.document = doc) && decide (e.page_number = page))).map
    (fun e => ((personaSet ++ taskSet).filter
      (fun kw => containsSub kw (lower e.refined_text))).length)).sum)

/-- Modelled from the spec (§4.6 paragraph relevance filter), for
refinement comparison only: the conjunctive filter — a paragraph is
kept iff it matches the persona set AND the task set. -/
def spec_subsections (docName : Str) (pageTexts : List (Nat × Str))
    (personaSet taskSet : List Str) : List SubsectionAnalysis :=
  pageTexts.flatMap (fun pt =>
    (paragraphsOf pt.2).filterMap (fun para =>
      if !(keywordMatches personaSet (lower para)).isEmpty &&
          !(keywordMatches taskSet (lower para)).isEmpty then
        some ⟨docName, trimChars para, pt.1⟩
      else none))

/-- Modelled from the spec (§4.6), for refinement comparison only:
after all headings and paragraphs are collected, headings are sorted by
descending score (stable, ties keep discovery order) and assigned
`importanceRank = position + 1`.  Each heading is
(document, title, pageNumber); the result lists the ranks aligned with
the discovery order. -/
def spec_importance_ranks (personaSet taskSet : List Str)
    (subs : List SubsectionAnalysis)
    (headings : List (Str × Str × Nat)) : List Nat :=
  let idxd := headings.enum
  let sorted := idxd.insertionSort (fun a b =>
    spec_heading_score personaSet taskSet subs b.2.1 b.2.2.2 ≤
      spec_heading_score personaSet taskSet subs a.2.1 a.2.2.2)
  idxd.map (fun p => (sorted.findIdx (fun q => q.1 = p.1)) + 1)

/-- First document of the C3 refutation: no relevant paragraph, one
heading capture. -/
def c3DocA : RunDoc :=
  ⟨(r"a.pdf").data, true, some [(1, (r"Short text here").data)], none,
   [(r"INTRODUCTION").data]⟩

/-- Second document of the C3 refutation: a highly relevant paragraph,
one heading capture. -/
def c3DocB : RunDoc :=
  ⟨(r"b.pdf").data, true,
   some [(1, (r"Book the hotel for the trip and travel light today").data)], none,
   [(r"HOTEL GUIDE").data]⟩

/-- ASCII uppercase letter (regex class `[A-Z]`). -/
def isUpperAZ (c : Char) : Bool := 65 ≤ c.toNat && c.toNat ≤ 90

/-- ASCII lowercase letter (regex class `[a-z]`). -/
def isLowerAZ (c : Char) : Bool := 97 ≤ c.toNat && c.toNat ≤ 122

/-- ASCII digit (regex class `\d` on ASCII input). -/
def isDigit09 (c : Char) : Bool := 48 ≤ c.toNat && c.toNat ≤ 57

/-- ASCII letter. -/
def isAZ (c : Char) : Bool := isUpperAZ c || isLowerAZ c

/-- Invariant of every first-group capture of heading patterns 1, 2 and
4 of `process_pdf_collection` (`[A-Z][A-Za-z\s]{3,}`,
`\d+\.?\s+[A-Z][A-Za-z\s]+`, `[A-Z\s]{4,}`): every character is an
ASCII letter, an ASCII digit, a period, or regex whitespace. -/
def shapeAsciiClass (c : Str) : Bool :=
  c.all (fun ch => isAZ ch || isDigit09 ch || ch = '.' || isWs ch)

/-- Invariant of every capture of heading pattern 3
(`Chapter\s+\d+[^.]*`): the literal `Chapter`, a non-empty whitespace
run, then a digit. -/
def shapeChapter (c : Str) : Bool :=
  prefixOfB ((r"Chapter").data) c &&
  !((c.drop 7).takeWhile isWs).isEmpty &&
  (match (c.drop 7).dropWhile isWs with
   | [] => false
   | d :: _ => isDigit09 d)

/-- Invariant of every capture of heading pattern 5
(`[A-Z][a-z]+\s+[A-Z][a-z]+.*`): an uppercase letter, a non-empty
(maximal) lowercase run, a non-empty (maximal) whitespace run, then an
uppercase letter followed by a lowercase letter. -/
def shapeTitleCase (c : Str) : Bool :=
  match c with
  | [] => false
  | u :: rest =>
    isUpperAZ u && !(rest.takeWhile isLowerAZ).isEmpty &&
    !(((rest.dropWhile isLowerAZ)).takeWhile isWs).isEmpty &&
    (match (rest.dropWhile isLowerAZ).dropWhile isWs with
     | [] => false
     | v :: rest2 => isUpperAZ v && !(rest2.takeWhile isLowerAZ).isEmpty)

/-- Every whitespace character of the string is a plain space. -/
abbrev wsSpace (l : Str) : Prop := ∀ c ∈ l, isWs c = true → c = ' '

/-- No two adjacent whitespace characters. -/
abbrev noAdjWs (l : Str) : Prop :=
  List.Chain' (fun a b => ¬(isWs a = true ∧ isWs b = true)) l

/-- The line-join stage of `clean_extracted_text`. -/
def cleanedOf (raw : Str) : Str :=
  joinSep [' '] (((linesChars raw).map trimChars).filter (fun l => !l.isEmpty))

/-- The whitespace-collapse stage of `clean_extracted_text`. -/
def normalizedOf (raw : Str) : Str := collapseWs (cleanedOf raw)

/-- The sentence list of `clean_extracted_text`. -/
def partsOf (raw : Str) : List Str :=
  ((splitChar '.' (normalizedOf raw)).map trimChars).filter (fun l => !l.isEmpty)

set_option maxRecDepth 100000

example : containsSub ((r"lo w").data) ((r"hello world").data) = true := by decide

example : containsSub ((r"low").data) ((r"hello world").data) = false := by decide

example : splitChar '.' ((r"a.b..c").data) =
    [(r"a").data, (r"b").data, [], (r"c").data] := by decide

example : splitChar '.' [] = [[]] := by decide

example : splitNlNl ((r"ab").data ++ ['\n', '\n', '\n'] ++ (r"cd").data) =
    [(r"ab").data, '\n' :: (r"cd").data] := by decide

example : trimChars ((r"  ab c ").data) = (r"ab c").data := by decide

example : collapseWs ((r"a").data ++ ['\t', '\t', ' '] ++ (r"b").data) =
    (r"a b").data := by decide

example : linesChars ((r"a").data ++ ['\n'] ++ (r"b").data ++ ['\n']) =
    [(r"a").data, (r"b").data] := by decide

example : linesChars [] = [] := by decide

example : joinSep ((r". ").data) [(r"a").data, (r"b").data] = (r"a. b").data := by
  decide

example : clean_extracted_text ((r"abc").data) = (r"abc.").data := by decide

example : clean_extracted_text ((r"abc.").data) = (r"abc").data := by decide

example : task_keywords ((r"Plan a trip!").data) =
    [(r"plan").data, (r"a").data, (r"trip").data] := by decide

example : personaDict ((r"Chef").data) = [] := by decide

example : withExtTxt ((r"doc.pdf").data) = (r"doc.txt").data := by decide

example : withExtTxt ((r"doc").data) = (r"doc.txt").data := by decide

example : pushHeadings ((r"d.pdf").data) [(r" INTRODUCTION ").data, (r"ab").data] [] =
    [⟨(r"d.pdf").data, (r"INTRODUCTION").data, 1, 1⟩] := by decide

theorem matches_cond_iff {kws tks : List Str} {pl : Str} :
    (!(keywordMatches kws pl).isEmpty || !(keywordMatches tks pl).isEmpty) = true ↔
      ((∃ kw ∈ kws, containsSub kw pl = true) ∨
       (∃ kw ∈ tks, containsSub kw pl = true)) := by
  simp [keywordMatches, List.isEmpty_iff, List.filter_eq_nil_iff]

theorem mem_collectRelevant {docName : Str} {pageTexts : List (Nat × Str)}
    {kws tks : List Str} {e : SubsectionAnalysis} :
    e ∈ collectRelevant docName pageTexts kws tks ↔
      ∃ pt ∈ pageTexts, ∃ para ∈ paragraphsOf pt.2,
        ((∃ kw ∈ kws, containsSub kw (lower para) = true) ∨
         (∃ kw ∈ tks, containsSub kw (lower para) = true)) ∧
        e = ⟨docName, trimChars para, pt.1⟩ := by
  unfold collectRelevant
  rw [List.mem_flatMap]
  refine exists_congr fun pt => and_congr_right fun _ => ?_
  rw [List.mem_filterMap]
  refine exists_congr fun para => and_congr_right fun _ => ?_
  constructor
  · intro h
    split_ifs at h with hc
    exact ⟨matches_cond_iff.mp hc, (Option.some.inj h).symm⟩
  · rintro ⟨hd, he⟩
    rw [if_pos (matches_cond_iff.mpr hd), he]

/-- C1: the claim says a paragraph is emitted iff it contains at least
one persona-set token AND at least one task-set token.  Refuted: with
persona "Travel Planner" and task "plan a trip", a paragraph matching
no persona keyword (neither from the code's fixed dictionary nor from
the spec's extracted set {travel, planner}) is still emitted, because
the code's filter is disjunctive (`||`, line 371 of
`pdf_processor.rs`). -/
theorem c1_counterexample :
    find_relevant_content ((r"d1.pdf").data) [(1, c1Text)]
        ((r"Travel Planner").data) ((r"plan a trip").data) =
      [⟨(r"d1.pdf").data, c1Text, 1⟩] ∧
    keywordMatches (personaDict ((r"Travel Planner").data)) (lower c1Text) = [] ∧
    keywordMatches (spec_keyword_extract ((r"Travel Planner").data)) (lower c1Text) = [] := by
  decide

/-- C1 (amended): a paragraph is emitted as a `SubsectionAnalysis`
entry iff its lowercased text contains at least one keyword from the
persona dictionary **or** at least one task token (disjunctive filter);
the entry carries the trimmed paragraph and its page number. -/
theorem c1_amended (docName : Str) (pageTexts : List (Nat × Str))
    (persona task : Str) (e : SubsectionAnalysis) :
    e ∈ find_relevant_content docName pageTexts persona task ↔
      ∃ pt ∈ pageTexts, ∃ para ∈ paragraphsOf pt.2,
        ((∃ kw ∈ personaDict persona, containsSub kw (lower para) = true) ∨
         (∃ kw ∈ task_keywords task, containsSub kw (lower para) = true)) ∧
        e = ⟨docName, trimChars para, pt.1⟩ := by
  have h1 : e ∈ find_relevant_content docName pageTexts persona task ↔
      e ∈ collectRelevant docName pageTexts (personaDict persona) (task_keywords task) :=
    (List.perm_insertionSort _ _).mem_iff
  rw [h1, mem_collectRelevant]

/-- C2: the claim says the keyword set of every input string (persona
role or task) is produced by the generic tokenizer, with "Travel
Planner" yielding exactly {travel, planner}.  Refuted: the persona
keywords come from a fixed dictionary ("hotel" is a Travel Planner
keyword but not a token of "Travel Planner"), and the task tokenizer
keeps tokens of length ≤ 2 that the claimed algorithm discards. -/
theorem c2_counterexample :
    ((r"hotel").data ∈ personaDict ((r"Travel Planner").data) ∧
     (r"hotel").data ∉ spec_keyword_extract ((r"Travel Planner").data)) ∧
    task_keywords ((r"go to a spa").data) ≠
      spec_keyword_extract ((r"go to a spa").data) := by
  decide

/-- C2 (amended): persona keywords come from a fixed per-persona
dictionary — the 20-entry travel list for "travel planner" (case
insensitive), empty for unknown personas — while task keywords are the
lowercased, whitespace-split, non-alphanumeric-stripped, non-empty
tokens with *no* length filter; the spec's extractor equals the code's
task extractor restricted to tokens longer than 2 characters; and the
empty string yields the empty set on both sides. -/
theorem c2_amended :
    (∀ p : Str, lower p ≠ (r"travel planner").data →
        lower p ≠ (r"hr professional").data →
        lower p ≠ (r"food contractor").data → personaDict p = []) ∧
    personaDict ((r"Travel Planner").data) = travelKeywords ∧
    (∀ s : Str, spec_keyword_extract s =
      (task_keywords s).filter (fun t => t.length > 2)) ∧
    task_keywords [] = [] ∧ personaDict [] = [] := by
  refine ⟨?_, by decide, ?_, by decide, by decide⟩
  · intro p h1 h2 h3
    unfold personaDict
    rw [if_neg h1, if_neg h2, if_neg h3]
  · intro s
    unfold spec_keyword_extract task_keywords
    rw [List.filter_filter]
    refine List.filter_congr fun t _ => ?_
    exact Bool.and_comm _ _

/-- Witness for C2 (amended) at concrete inputs. -/
theorem c2_amended_witness :
    personaDict ((r"Chef").data) = [] ∧
    spec_keyword_extract ((r"plan a trip").data) =
      (task_keywords ((r"plan a trip").data)).filter (fun t => t.length > 2) :=
  ⟨c2_amended.1 ((r"Chef").data) (by decide) (by decide) (by decide),
   c2_amended.2.2.1 ((r"plan a trip").data)⟩

/-- C5: the claim says `SubsectionAnalysis` entries appear in
document/page/discovery order with no secondary relevance-score sort.
Refuted: `find_relevant_content` ends with
`sort_by(|a, b| b_score.cmp(&a_score))`, and on this concrete page the
higher-scoring later paragraph is emitted first — the output is a
permutation of, but not equal to, the encounter-order collection. -/
theorem c5_counterexample :
    find_relevant_content ((r"d.pdf").data) [(1, c5Text)]
        ((r"Travel Planner").data) ((r"plan the perfect trip").data) ≠
      collectRelevant ((r"d.pdf").data) [(1, c5Text)]
        (personaDict ((r"Travel Planner").data))
        (task_keywords ((r"plan the perfect trip").data)) ∧
    (find_relevant_content ((r"d.pdf").data) [(1, c5Text)]
        ((r"Travel Planner").data) ((r"plan the perfect trip").data)).Perm
      (collectRelevant ((r"d.pdf").data) [(1, c5Text)]
        (personaDict ((r"Travel Planner").data))
        (task_keywords ((r"plan the perfect trip").data))) :=
  ⟨by decide, List.perm_insertionSort _ _⟩

/-- Inserting an element with `orderedInsert` under the descending-key
comparator preserves the equal-key sublist for every key value `k`: the
inserted element goes in front of the equal-key block (it precedes in
insertion order every element already present), and elements of other
keys keep their relative order. -/
theorem filter_key_orderedInsert {α : Type} (f : α → Nat) (k : Nat) (a : α) :
    ∀ l : List α,
      (l.orderedInsert (fun x y => f y ≤ f x) a).filter (fun x => f x = k) =
        if f a = k then a :: l.filter (fun x => f x = k)
        else l.filter (fun x => f x = k)
  | [] => by
      by_cases h : f a = k <;> simp [List.orderedInsert, List.filter_cons, h]
  | b :: l => by
      simp only [List.orderedInsert]
      by_cases hab : f b ≤ f a
      · rw [if_pos hab]
        by_cases h : f a = k <;> simp [List.filter_cons, h]
      · rw [if_neg hab]
        rw [List.filter_cons]
        rw [filter_key_orderedInsert f k a l]
        by_cases h : f a = k
        · have hbk : ¬ (f b = k) := by omega
          simp [List.filter_cons, h, hbk]
        · by_cases hb : f b = k <;> simp [List.filter_cons, h, hb]

/-- Stability of `insertionSort` under the descending-key comparator:
for every key value `k`, the sublist of elements whose key is `k` is the
same before and after sorting — equal-key elements keep their original
relative order. -/
theorem insertionSort_filter_key {α : Type} (f : α → Nat) (k : Nat) :
    ∀ l : List α,
      (l.insertionSort (fun x y => f y ≤ f x)).filter (fun x => f x = k) =
        l.filter (fun x => f x = k)
  | [] => rfl
  | a :: l => by
      simp only [List.insertionSort]
      rw [filter_key_orderedInsert f k a (l.insertionSort (fun x y => f y ≤ f x))]
      rw [insertionSort_filter_key f k l]
      by_cases h : f a = k <;> simp [List.filter_cons, h]

/-- C6: the claim says the text normalizer is idempotent.  Refuted on
the one-word input "abc": normalizing once appends a final period,
normalizing the result removes it again. -/
theorem c6_counterexample :
    clean_extracted_text (clean_extracted_text ((r"abc").data)) ≠
      clean_extracted_text ((r"abc").data) := by
  decide

theorem runLoop_success (persona task outPath : Str) (docs : List RunDoc)
    (secs : List ExtractedSection) (subs : List SubsectionAnalysis)
    (writes olog : List Str) (hall : ∀ d ∈ docs, d.pathExists = true) :
    runLoop persona task outPath docs secs subs writes olog =
      .success ((collectSections docs secs).insertionSort
          (fun a b => a.importance_rank ≤ b.importance_rank))
        (subs ++ docs.flatMap (docSubs persona task))
        (writes ++ (docs.filter (fun d => d.decode.isSome)).map
          (fun d => withExtTxt d.filename) ++ [outPath])
        (olog ++ (docs.filter (fun d => d.decode.isNone)).map (fun d => d.filename)) := by
  induction docs generalizing secs subs writes olog with
  | nil => simp [runLoop, collectSections]
  | cons d rest ih =>
    have hd : d.pathExists = true := hall d (List.mem_cons_self d rest)
    have hrest : ∀ x ∈ rest, x.pathExists = true :=
      fun x hx => hall x (List.mem_cons_of_mem d hx)
    cases hdec : d.decode with
    | some pts =>
      cases hocr : d.ocr with
      | some t =>
        simp only [runLoop, hd, Bool.not_true, Bool.false_eq_true, if_false, hdec,
          collectSections, ih _ _ _ _ hrest, docSubs, List.flatMap_cons,
          List.filter_cons, Option.isSome_some, Option.isNone_some, List.map_cons,
          List.append_assoc, List.cons_append, List.nil_append]
        simp
      | none =>
        simp only [runLoop, hd, Bool.not_true, Bool.false_eq_true, if_false, hdec,
          collectSections, ih _ _ _ _ hrest, docSubs, List.flatMap_cons,
          List.filter_cons, Option.isSome_some, Option.isNone_some, List.map_cons,
          List.append_assoc, List.cons_append, List.nil_append]
        simp
    | none =>
      cases hocr : d.ocr with
      | some t =>
        simp only [runLoop, hd, Bool.not_true, Bool.false_eq_true, if_false, hdec, hocr,
          collectSections, ih _ _ _ _ hrest, docSubs, List.flatMap_cons,
          List.filter_cons, Option.isSome_none, Option.isNone_none, List.map_cons,
          List.append_assoc, List.cons_append, List.nil_append]
        simp
      | none =>
        simp only [runLoop, hd, Bool.not_true, Bool.false_eq_true, if_false, hdec, hocr,
          collectSections, ih _ _ _ _ hrest, docSubs, List.flatMap_cons,
          List.filter_cons, Option.isSome_none, Option.isNone_none, List.map_cons,
          List.append_assoc, List.cons_append, List.nil_append]
        simp

theorem pushHeadings_map_rank (filename : Str) (caps : List Str)
    (acc : List ExtractedSection)
    (h : acc.map (fun s => s.importance_rank) = List.range' 1 acc.length) :
    (pushHeadings filename caps acc).map (fun s => s.importance_rank) =
      List.range' 1 (pushHeadings filename caps acc).length := by
  induction caps generalizing acc with
  | nil => exact h
  | cons c cs ih =>
    unfold pushHeadings
    split_ifs with hc
    · apply ih
      rw [List.map_append, h, List.length_append]
      simp [List.range'_concat, Nat.add_comm]
    · exact ih _ h

theorem collectSections_map_rank (docs : List RunDoc) (acc : List ExtractedSection)
    (h : acc.map (fun s => s.importance_rank) = List.range' 1 acc.length) :
    (collectSections docs acc).map (fun s => s.importance_rank) =
      List.range' 1 (collectSections docs acc).length := by
  induction docs generalizing acc with
  | nil => exact h
  | cons d rest ih =>
    unfold collectSections
    cases hdec : d.decode with
    | some pts => exact ih _ (pushHeadings_map_rank _ _ _ h)
    | none => exact ih _ h

theorem sorted_of_rank_range {l : List ExtractedSection}
    (h : l.map (fun s => s.importance_rank) = List.range' 1 l.length) :
    List.Sorted (fun a b : ExtractedSection =>
      a.importance_rank ≤ b.importance_rank) l := by
  have hp : (l.map (fun s => s.importance_rank)).Pairwise (· < ·) := by
    rw [h]; exact List.pairwise_lt_range' 1 l.length
  rw [List.pairwise_map] at hp
  exact hp.imp fun hab => le_of_lt hab

theorem process_success_parts (persona task outPath : Str) (docs : List RunDoc)
    (hall : ∀ d ∈ docs, d.pathExists = true) :
    process_pdf_collection persona task docs outPath =
      .success (collectSections docs [])
        (docs.flatMap (docSubs persona task))
        ((docs.filter (fun d => d.decode.isSome)).map
          (fun d => withExtTxt d.filename) ++ [outPath])
        ((docs.filter (fun d => d.decode.isNone)).map (fun d => d.filename)) := by
  unfold process_pdf_collection
  rw [runLoop_success persona task outPath docs [] [] [] [] hall]
  rw [List.Sorted.insertionSort_eq
    (sorted_of_rank_range (collectSections_map_rank docs [] (by simp)))]
  simp

/-- C5 (amended): on a successful run the `SubsectionAnalysis` output is
the document-order concatenation of the per-document groups, and each
per-document group is the encounter-order collection **stably** sorted
by descending recomputed relevance score: it is a permutation of the
encounter-order collection, its scores are pairwise descending, and for
every score value `k` the entries of score `k` appear exactly as in the
encounter-order collection — ties keep encounter order. -/
theorem c5_amended (persona task outPath : Str) (docs : List RunDoc)
    (hall : ∀ d ∈ docs, d.pathExists = true) :
    resultSubsections (process_pdf_collection persona task docs outPath) =
      docs.flatMap (docSubs persona task) ∧
    ∀ docName pageTexts,
      (find_relevant_content docName pageTexts persona task).Perm
        (collectRelevant docName pageTexts (personaDict persona) (task_keywords task)) ∧
      (find_relevant_content docName pageTexts persona task).Pairwise
        (fun a b => entryScore (personaDict persona) (task_keywords task) b ≤
          entryScore (personaDict persona) (task_keywords task) a) ∧
      ∀ k : Nat,
        (find_relevant_content docName pageTexts persona task).filter
            (fun e => entryScore (personaDict persona) (task_keywords task) e = k) =
          (collectRelevant docName pageTexts (personaDict persona)
              (task_keywords task)).filter
            (fun e => entryScore (personaDict persona) (task_keywords task) e = k) := by
  constructor
  · rw [process_success_parts persona task outPath docs hall]
    rfl
  · intro docName pageTexts
    refine ⟨List.perm_insertionSort _ _, ?_, ?_⟩
    · haveI ht : IsTotal SubsectionAnalysis
          (fun a b => entryScore (personaDict persona) (task_keywords task) b ≤
            entryScore (personaDict persona) (task_keywords task) a) :=
        ⟨fun a b => Nat.le_total _ _⟩
      haveI htr : IsTrans SubsectionAnalysis
          (fun a b => entryScore (personaDict persona) (task_keywords task) b ≤
            entryScore (personaDict persona) (task_keywords task) a) :=
        ⟨fun a b c hab hbc => Nat.le_trans hbc hab⟩
      exact List.sorted_insertionSort _ _
    · intro k
      exact insertionSort_filter_key
        (entryScore (personaDict persona) (task_keywords task)) k
        (collectRelevant docName pageTexts (personaDict persona) (task_keywords task))

/-- Witness for C5 (amended) on a concrete one-document run and on the
concrete two-paragraph page of the counterexample, at score value 13
(the score of its higher-scoring paragraph, so the equal-score filter is
non-empty). -/
theorem c5_amended_witness :
    resultSubsections (process_pdf_collection ((r"Travel Planner").data)
        ((r"plan the perfect trip").data) [wDocA] ((r"out.json").data)) =
      [wDocA].flatMap
        (docSubs ((r"Travel Planner").data) ((r"plan the perfect trip").data)) ∧
    (find_relevant_content ((r"d.pdf").data) [(1, c5Text)]
          ((r"Travel Planner").data) ((r"plan the perfect trip").data)).filter
        (fun e => entryScore (personaDict ((r"Travel Planner").data))
          (task_keywords ((r"plan the perfect trip").data)) e = 13) =
      (collectRelevant ((r"d.pdf").data) [(1, c5Text)]
          (personaDict ((r"Travel Planner").data))
          (task_keywords ((r"plan the perfect trip").data))).filter
        (fun e => entryScore (personaDict ((r"Travel Planner").data))
          (task_keywords ((r"plan the perfect trip").data)) e = 13) :=
  ⟨(c5_amended ((r"Travel Planner").data) ((r"plan the perfect trip").data)
      ((r"out.json").data) [wDocA]
      (by intro d hd; simp at hd; subst hd; rfl)).1,
   ((c5_amended ((r"Travel Planner").data) ((r"plan the perfect trip").data)
      ((r"out.json").data) [wDocA]
      (by intro d hd; simp at hd; subst hd; rfl)).2
     ((r"d.pdf").data) [(1, c5Text)]).2.2 13⟩

theorem runLoop_failure (persona task outPath : Str) (pre : List RunDoc)
    (d : RunDoc) (post : List RunDoc) (secs : List ExtractedSection)
    (subs : List SubsectionAnalysis) (writes olog : List Str)
    (hpre : ∀ x ∈ pre, x.pathExists = true) (hd : d.pathExists = false) :
    runLoop persona task outPath (pre ++ d :: post) secs subs writes olog =
      .failure
        (writes ++ (pre.filter (fun x => x.decode.isSome)).map
          (fun x => withExtTxt x.filename))
        (olog ++ (pre.filter (fun x => x.decode.isNone)).map (fun x => x.filename)) := by
  induction pre generalizing secs subs writes olog with
  | nil => simp [runLoop, hd]
  | cons x rest ih =>
    have hx : x.pathExists = true := hpre x (List.mem_cons_self x rest)
    have hrest : ∀ y ∈ rest, y.pathExists = true :=
      fun y hy => hpre y (List.mem_cons_of_mem x hy)
    cases hdec : x.decode with
    | some pts =>
      simp only [List.cons_append, runLoop, hx, Bool.not_true, Bool.false_eq_true,
        if_false, hdec, List.append_eq]
      rw [ih _ _ _ _ hrest]
      simp [hdec]
    | none =>
      cases hocr : x.ocr with
      | some t =>
        simp only [List.cons_append, runLoop, hx, Bool.not_true, Bool.false_eq_true,
          if_false, hdec, hocr, List.append_eq]
        rw [ih _ _ _ _ hrest]
        simp [hdec]
      | none =>
        simp only [List.cons_append, runLoop, hx, Bool.not_true, Bool.false_eq_true,
          if_false, hdec, hocr, List.append_eq]
        rw [ih _ _ _ _ hrest]
        simp [hdec]

/-- C4: on every successful run the `importance_rank` values across the
extracted sections form exactly the set `{1, …, N}` — no duplicates,
and a rank occurs iff it lies between 1 and the number of sections —
regardless of how many documents the headings come from. -/
theorem c4_rank_range (persona task outPath : Str) (docs : List RunDoc)
    (secs : List ExtractedSection) (subs : List SubsectionAnalysis)
    (writes olog : List Str)
    (hall : ∀ d ∈ docs, d.pathExists = true)
    (hres : process_pdf_collection persona task docs outPath =
      RunResult.success secs subs writes olog) :
    (secs.map (fun s => s.importance_rank)).Nodup ∧
    ∀ rk : Nat, rk ∈ secs.map (fun s => s.importance_rank) ↔
      1 ≤ rk ∧ rk ≤ secs.length := by
  rw [process_success_parts persona task outPath docs hall] at hres
  injection hres with h1 h2 h3 h4
  subst h1
  have hr := collectSections_map_rank docs [] (by simp)
  constructor
  · rw [hr]; exact List.nodup_range' 1 _
  · intro rk
    rw [hr, List.mem_range'_1]
    omega

/-- Witness for C4 at a concrete one-document run. -/
theorem c4_rank_range_witness :
    (([⟨(r"a.pdf").data, (r"INTRODUCTION").data, 1, 1⟩,
       ⟨(r"a.pdf").data, (r"OVERVIEW AND NOTES").data, 2, 1⟩] :
        List ExtractedSection).map (fun s => s.importance_rank)).Nodup ∧
    ∀ rk : Nat, rk ∈ ([⟨(r"a.pdf").data, (r"INTRODUCTION").data, 1, 1⟩,
       ⟨(r"a.pdf").data, (r"OVERVIEW AND NOTES").data, 2, 1⟩] :
        List ExtractedSection).map (fun s => s.importance_rank) ↔
      1 ≤ rk ∧ rk ≤ ([⟨(r"a.pdf").data, (r"INTRODUCTION").data, 1, 1⟩,
       ⟨(r"a.pdf").data, (r"OVERVIEW AND NOTES").data, 2, 1⟩] :
        List ExtractedSection).length :=
  c4_rank_range ((r"Travel Planner").data) ((r"plan a trip").data)
    ((r"out.json").data) [wDocA] _ []
    [(r"a.txt").data, (r"out.json").data] []
    (by intro d hd; simp at hd; subst hd; rfl) (by decide)

/-- C3 (amended): `importance_rank` is assigned at extraction time as
the heading's 1-based global discovery index (across all documents of
the run); the later `sort_by_key(importance_rank)` is the identity on
that discovery-order list; no relevance score influences the rank. -/
theorem c3_amended (persona task outPath : Str) (docs : List RunDoc)
    (secs : List ExtractedSection) (subs : List SubsectionAnalysis)
    (writes olog : List Str)
    (hall : ∀ d ∈ docs, d.pathExists = true)
    (hres : process_pdf_collection persona task docs outPath =
      RunResult.success secs subs writes olog) :
    secs = collectSections docs [] ∧
    ∀ i (hi : i < secs.length), (secs.get ⟨i, hi⟩).importance_rank = i + 1 := by
  rw [process_success_parts persona task outPath docs hall] at hres
  injection hres with h1 h2 h3 h4
  subst h1
  refine ⟨rfl, ?_⟩
  intro i hi
  have hr := collectSections_map_rank docs [] (by simp)
  have hlen : i < ((collectSections docs []).map
      (fun s => s.importance_rank)).length := by simpa using hi
  have hg := List.getElem_of_eq hr hlen
  simp only [List.getElem_map, List.getElem_range'] at hg
  simp [List.get_eq_getElem, hg]
  omega

/-- Witness for C3 (amended) at a concrete one-document run. -/
theorem c3_amended_witness :
    ([⟨(r"a.pdf").data, (r"INTRODUCTION").data, 1, 1⟩,
      ⟨(r"a.pdf").data, (r"OVERVIEW AND NOTES").data, 2, 1⟩] :
       List ExtractedSection) = collectSections [wDocA] [] ∧
    ∀ i (hi : i < ([⟨(r"a.pdf").data, (r"INTRODUCTION").data, 1, 1⟩,
      ⟨(r"a.pdf").data, (r"OVERVIEW AND NOTES").data, 2, 1⟩] :
       List ExtractedSection).length),
      (([⟨(r"a.pdf").data, (r"INTRODUCTION").data, 1, 1⟩,
        ⟨(r"a.pdf").data, (r"OVERVIEW AND NOTES").data, 2, 1⟩] :
         List ExtractedSection).get ⟨i, hi⟩).importance_rank = i + 1 :=
  c3_amended ((r"Travel Planner").data) ((r"plan a trip").data)
    ((r"out.json").data) [wDocA] _ []
    [(r"a.txt").data, (r"out.json").data] []
    (by intro d hd; simp at hd; subst hd; rfl) (by decide)

/-- C9: the claim says no file other than the output JSON is created
by a run.  Refuted: `extract_pdf_text` writes a debug text file next to
every successfully decoded PDF (lines 183–189 of `pdf_processor.rs`),
so this one-document run creates "a.txt" in addition to "out.json". -/
theorem c9_counterexample :
    resultWrites (process_pdf_collection ((r"Travel Planner").data)
        ((r"plan a trip").data) [wDocA] ((r"out.json").data)) =
      [(r"a.txt").data, (r"out.json").data] ∧
    ((r"a.txt").data : Str) ≠ (r"out.json").data := by decide

/-- C9 (amended): a successful run writes exactly one debug text file
(the PDF file name with its extension replaced by `txt`) per
successfully decoded document, in document order, followed by the
output JSON — and nothing else; documents that fall back to OCR or
fail entirely contribute no writes. -/
theorem c9_amended (persona task outPath : Str) (docs : List RunDoc)
    (hall : ∀ d ∈ docs, d.pathExists = true) :
    resultWrites (process_pdf_collection persona task docs outPath) =
      (docs.filter (fun d => d.decode.isSome)).map
        (fun d => withExtTxt d.filename) ++ [outPath] := by
  rw [process_success_parts persona task outPath docs hall]
  rfl

/-- Witness for C9 (amended) on a run with one decoded document and one
OCR-fallback document. -/
theorem c9_amended_witness :
    resultWrites (process_pdf_collection ((r"Travel Planner").data)
        ((r"plan a trip").data) [wDocA, wDocB] ((r"out.json").data)) =
      ([wDocA, wDocB].filter (fun d => d.decode.isSome)).map
        (fun d => withExtTxt d.filename) ++ [(r"out.json").data] :=
  c9_amended ((r"Travel Planner").data) ((r"plan a trip").data)
    ((r"out.json").data) [wDocA, wDocB]
    (by intro d hd; simp at hd; rcases hd with h | h <;> subst h <;> rfl)

/-- C10: if any document's PDF path does not exist, the run returns an
error at that document: later documents are not processed, and the
output JSON is never written — the only files created are the debug
text files of the earlier, successfully decoded documents (no partial
output). -/
theorem c10_missing_pdf (persona task outPath : Str) (pre post : List RunDoc)
    (d : RunDoc) (hpre : ∀ x ∈ pre, x.pathExists = true)
    (hd : d.pathExists = false) :
    process_pdf_collection persona task (pre ++ d :: post) outPath =
      RunResult.failure
        ((pre.filter (fun x => x.decode.isSome)).map (fun x => withExtTxt x.filename))
        ((pre.filter (fun x => x.decode.isNone)).map (fun x => x.filename)) ∧
    isSuccess (process_pdf_collection persona task (pre ++ d :: post) outPath) =
      false := by
  unfold process_pdf_collection
  rw [runLoop_failure persona task outPath pre d post [] [] [] [] hpre hd]
  simp [isSuccess]

/-- Witness for C10: the earlier document was processed (its debug file
written), yet the run fails and no output JSON is written. -/
theorem c10_missing_pdf_witness :
    process_pdf_collection ((r"Travel Planner").data) ((r"plan a trip").data)
        ([wDocA] ++ wDocMissing :: [wDocB]) ((r"out.json").data) =
      RunResult.failure
        (([wDocA].filter (fun x => x.decode.isSome)).map
          (fun x => withExtTxt x.filename))
        (([wDocA].filter (fun x => x.decode.isNone)).map (fun x => x.filename)) ∧
    isSuccess (process_pdf_collection ((r"Travel Planner").data)
        ((r"plan a trip").data) ([wDocA] ++ wDocMissing :: [wDocB])
        ((r"out.json").data)) = false :=
  c10_missing_pdf ((r"Travel Planner").data) ((r"plan a trip").data)
    ((r"out.json").data) [wDocA] [wDocB] wDocMissing
    (by intro x hx; simp at hx; subst hx; rfl) (by decide)

theorem mem_find_relevant {docName : Str} {pageTexts : List (Nat × Str)}
    {persona task : Str} {e : SubsectionAnalysis} :
    e ∈ find_relevant_content docName pageTexts persona task ↔
      e ∈ collectRelevant docName pageTexts (personaDict persona) (task_keywords task) :=
  (List.perm_insertionSort _ _).mem_iff

theorem find_relevant_document {docName : Str} {pageTexts : List (Nat × Str)}
    {persona task : Str} {e : SubsectionAnalysis}
    (he : e ∈ find_relevant_content docName pageTexts persona task) :
    e.document = docName := by
  rw [mem_find_relevant, mem_collectRelevant] at he
  obtain ⟨pt, _, para, _, _, rfl⟩ := he
  rfl

theorem find_relevant_page_one {docName t persona task : Str}
    {e : SubsectionAnalysis}
    (he : e ∈ find_relevant_content docName [(1, t)] persona task) :
    e.page_number = 1 := by
  rw [mem_find_relevant, mem_collectRelevant] at he
  obtain ⟨pt, hpt, para, _, _, rfl⟩ := he
  have hp : pt = (1, t) := by simpa using hpt
  rw [hp]

theorem docSubs_document {persona task : Str} {d : RunDoc}
    {e : SubsectionAnalysis} (he : e ∈ docSubs persona task d) :
    e.document = d.filename := by
  unfold docSubs at he
  split at he
  · exact find_relevant_document he
  · split at he
    · exact find_relevant_document he
    · simp at he

theorem mem_pushHeadings {filename : Str} {caps : List Str}
    {acc : List ExtractedSection} {s : ExtractedSection}
    (hs : s ∈ pushHeadings filename caps acc) :
    s ∈ acc ∨ s.document = filename := by
  induction caps generalizing acc with
  | nil => exact Or.inl hs
  | cons c cs ih =>
    unfold pushHeadings at hs
    split_ifs at hs with hc
    · rcases ih hs with h | h
      · rcases List.mem_append.mp h with h | h
        · exact Or.inl h
        · rw [List.mem_singleton] at h
          rw [h]
          exact Or.inr rfl
      · exact Or.inr h
    · exact ih hs

theorem mem_collectSections {docs : List RunDoc} {acc : List ExtractedSection}
    {s : ExtractedSection} (hs : s ∈ collectSections docs acc) :
    s ∈ acc ∨ ∃ d ∈ docs, d.decode.isSome = true ∧ s.document = d.filename := by
  induction docs generalizing acc with
  | nil => exact Or.inl hs
  | cons d rest ih =>
    unfold collectSections at hs
    split at hs
    · next pts heq =>
      rcases ih hs with h | ⟨x, hx, h1, h2⟩
      · rcases mem_pushHeadings h with h | h
        · exact Or.inl h
        · exact Or.inr ⟨d, List.mem_cons_self d rest, by simp [heq], h⟩
      · exact Or.inr ⟨x, List.mem_cons_of_mem d hx, h1, h2⟩
    · rcases ih hs with h | ⟨x, hx, h1, h2⟩
      · exact Or.inl h
      · exact Or.inr ⟨x, List.mem_cons_of_mem d hx, h1, h2⟩

/-- C8: a document whose PDF decode yields empty text (modelled as
`decode = none`, the `Err` branch of `extract_pdf_text`) triggers
exactly one OCR invocation; on OCR success the text is one synthetic
page numbered 1, so every `SubsectionAnalysis` entry of that document
has `page_number = 1`; and no heading of the run comes from that
document. -/
theorem c8_ocr_fallback (persona task outPath : Str) (pre post : List RunDoc)
    (d : RunDoc) (t : Str)
    (hall : ∀ x ∈ pre ++ d :: post, x.pathExists = true)
    (hdec : d.decode = none) (hocr : d.ocr = some t)
    (hname : ∀ x ∈ pre ++ post, x.filename ≠ d.filename) :
    (resultOcrLog (process_pdf_collection persona task
        (pre ++ d :: post) outPath)).count d.filename = 1 ∧
    (∀ e ∈ resultSubsections (process_pdf_collection persona task
        (pre ++ d :: post) outPath),
      e.document = d.filename → e.page_number = 1) ∧
    (∀ s ∈ resultSections (process_pdf_collection persona task
        (pre ++ d :: post) outPath),
      s.document ≠ d.filename) := by
  rw [process_success_parts persona task outPath (pre ++ d :: post) hall]
  refine ⟨?_, ?_, ?_⟩
  · simp only [resultOcrLog]
    rw [List.filter_append, List.map_append, List.count_append]
    rw [List.filter_cons_of_pos (by simp [hdec])]
    rw [List.map_cons]
    have h1 : List.count d.filename
        ((pre.filter (fun x => x.decode.isNone)).map (fun x => x.filename)) = 0 := by
      rw [List.count_eq_zero]
      intro hmem
      rw [List.mem_map] at hmem
      obtain ⟨x, hx, hxf⟩ := hmem
      exact hname x (List.mem_append_left post (List.mem_filter.mp hx).1) hxf
    have h2 : List.count d.filename
        ((post.filter (fun x => x.decode.isNone)).map (fun x => x.filename)) = 0 := by
      rw [List.count_eq_zero]
      intro hmem
      rw [List.mem_map] at hmem
      obtain ⟨x, hx, hxf⟩ := hmem
      exact hname x (List.mem_append_right pre (List.mem_filter.mp hx).1) hxf
    rw [h1, List.count_cons_self, h2]
  · intro e he hdoc
    simp only [resultSubsections] at he
    rw [List.mem_flatMap] at he
    obtain ⟨x, hx, hex⟩ := he
    have hxdoc := docSubs_document hex
    rcases List.mem_append.mp hx with hxpre | hxd
    · exact absurd (hxdoc.symm.trans hdoc) (hname x (List.mem_append_left post hxpre))
    · rcases List.mem_cons.mp hxd with rfl | hxpost
      · rw [show docSubs persona task x =
            find_relevant_content x.filename [(1, t)] persona task from by
          simp [docSubs, hdec, hocr]] at hex
        exact find_relevant_page_one hex
      · exact absurd (hxdoc.symm.trans hdoc)
          (hname x (List.mem_append_right pre hxpost))
  · intro s hs
    simp only [resultSections] at hs
    rcases mem_collectSections hs with h | ⟨x, hx, hxsome, hxdoc⟩
    · simp at h
    · rw [hxdoc]
      rcases List.mem_append.mp hx with hxpre | hxd
      · exact hname x (List.mem_append_left post hxpre)
      · rcases List.mem_cons.mp hxd with rfl | hxpost
        · rw [hdec] at hxsome; simp at hxsome
        · exact hname x (List.mem_append_right pre hxpost)

/-- Witness for C8 on a one-document run whose decode fails and whose
OCR succeeds. -/
theorem c8_ocr_fallback_witness :
    (resultOcrLog (process_pdf_collection ((r"Travel Planner").data)
        ((r"plan a trip").data) ([] ++ wDocB :: []) ((r"out.json").data))).count
      wDocB.filename = 1 ∧
    (∀ e ∈ resultSubsections (process_pdf_collection ((r"Travel Planner").data)
        ((r"plan a trip").data) ([] ++ wDocB :: []) ((r"out.json").data)),
      e.document = wDocB.filename → e.page_number = 1) ∧
    (∀ s ∈ resultSections (process_pdf_collection ((r"Travel Planner").data)
        ((r"plan a trip").data) ([] ++ wDocB :: []) ((r"out.json").data)),
      s.document ≠ wDocB.filename) :=
  c8_ocr_fallback ((r"Travel Planner").data) ((r"plan a trip").data)
    ((r"out.json").data) [] [] wDocB
    ((r"Book a hotel for the trip and travel light on the coast today").data)
    (by intro x hx; simp at hx; subst hx; rfl) rfl rfl
    (by intro x hx; simp at hx)

/-- C3: the claim says each heading's `importanceRank` is assigned only
after global collection, by sorting on co-located keyword counts.
Refuted: the code assigns the rank at extraction time as the discovery
index (line 55 of `pdf_processor.rs`).  On this concrete run the code
ranks INTRODUCTION first although the spec's scoring pass (score 0
versus score 3 for HOTEL GUIDE) demands the opposite order [2, 1]. -/
theorem c3_counterexample :
    (resultSections (process_pdf_collection ((r"Travel Planner").data)
        ((r"plan a hotel trip").data) [c3DocA, c3DocB] ((r"out.json").data))).map
      (fun s => (s.document, s.section_title, s.importance_rank)) =
      [((r"a.pdf").data, (r"INTRODUCTION").data, 1),
       ((r"b.pdf").data, (r"HOTEL GUIDE").data, 2)] ∧
    spec_importance_ranks (spec_keyword_extract ((r"Travel Planner").data))
      (spec_keyword_extract ((r"plan a hotel trip").data))
      (spec_subsections ((r"a.pdf").data) [(1, (r"Short text here").data)]
          (spec_keyword_extract ((r"Travel Planner").data))
          (spec_keyword_extract ((r"plan a hotel trip").data)) ++
       spec_subsections ((r"b.pdf").data)
          [(1, (r"Book the hotel for the trip and travel light today").data)]
          (spec_keyword_extract ((r"Travel Planner").data))
          (spec_keyword_extract ((r"plan a hotel trip").data)))
      [((r"a.pdf").data, (r"INTRODUCTION").data, 1),
       ((r"b.pdf").data, (r"HOTEL GUIDE").data, 1)] = [2, 1] := by
  decide

theorem length_le_utf8Len (l : Str) : l.length ≤ utf8Len l := by
  induction l with
  | nil => simp [utf8Len]
  | cons c rest ih =>
    unfold utf8Len at ih ⊢
    simp only [List.map_cons, List.sum_cons, List.length_cons]
    have := Char.utf8Size_pos c
    omega

theorem utf8Size_eq_one_of_ascii {c : Char} (h : c.toNat < 128) :
    c.utf8Size = 1 := by
  unfold Char.utf8Size
  simp only []
  rw [if_pos]
  exact Nat.le_of_lt_succ h

theorem utf8Len_eq_length {l : Str} (h : ∀ c ∈ l, c.toNat < 128) :
    utf8Len l = l.length := by
  induction l with
  | nil => rfl
  | cons c rest ih =>
    unfold utf8Len at ih ⊢
    simp only [List.map_cons, List.sum_cons, List.length_cons]
    rw [utf8Size_eq_one_of_ascii (h c (List.mem_cons_self c rest)),
      ih (fun x hx => h x (List.mem_cons_of_mem c hx))]
    omega

theorem mem_trimChars {l : Str} {c : Char} (hc : c ∈ trimChars l) : c ∈ l := by
  unfold trimChars stripEnds at hc
  rw [List.mem_reverse] at hc
  have h1 : c ∈ (l.dropWhile isWs).reverse :=
    (List.dropWhile_suffix isWs).sublist.mem hc
  rw [List.mem_reverse] at h1
  exact (List.dropWhile_suffix isWs).sublist.mem h1

theorem ascii_of_shapeAsciiClass {cand : Str}
    (hws : ∀ ch ∈ cand, isWs ch = true → ch = ' ' ∨ ch = '\n')
    (hcl : shapeAsciiClass cand = true) : ∀ ch ∈ cand, ch.toNat < 128 := by
  intro ch hch
  have hcls := (List.all_eq_true.mp hcl) ch hch
  rw [Bool.or_eq_true, Bool.or_eq_true, Bool.or_eq_true] at hcls
  rcases hcls with ((haz | hdig) | hdot) | hws2
  · unfold isAZ isUpperAZ isLowerAZ at haz
    simp at haz
    omega
  · unfold isDigit09 at hdig
    simp at hdig
    omega
  · rw [decide_eq_true_eq] at hdot
    rw [hdot]
    decide
  · rcases hws ch hch hws2 with h | h <;> rw [h] <;> decide

theorem prefixOfB_eq_true {n h : Str} (hp : prefixOfB n h = true) :
    ∃ t, h = n ++ t := by
  induction n generalizing h with
  | nil => exact ⟨h, rfl⟩
  | cons a as ih =>
    cases h with
    | nil => simp [prefixOfB] at hp
    | cons b bs =>
      unfold prefixOfB at hp
      rw [Bool.and_eq_true] at hp
      obtain ⟨t, ht⟩ := ih hp.2
      have hab : a = b := by
        have := hp.1
        rw [decide_eq_true_eq] at this
        exact this
      exact ⟨t, by rw [ht, hab, List.cons_append]⟩

theorem dropWhile_length_ge {p : Char → Bool} {x : Char} (s t : Str)
    (hx : p x = false) :
    t.length + 1 ≤ (List.dropWhile p (s ++ x :: t)).length := by
  induction s with
  | nil =>
    rw [List.nil_append, List.dropWhile_cons, if_neg (by simp [hx])]
    simp
  | cons a s' ih =>
    rw [List.cons_append, List.dropWhile_cons]
    split_ifs
    · exact ih
    · simp
      omega

theorem trimChars_length_of_decomp {h : Char} {m : Str} {x : Char} {v : Str}
    (hh : isWs h = false) (hx : isWs x = false) :
    m.length + 2 ≤ (trimChars (h :: (m ++ x :: v))).length := by
  unfold trimChars stripEnds
  rw [List.dropWhile_cons, if_neg (by simp [hh])]
  rw [List.length_reverse]
  have hrev : (h :: (m ++ x :: v)).reverse = v.reverse ++ x :: (m.reverse ++ [h]) := by
    simp
  rw [hrev]
  have hd := dropWhile_length_ge v.reverse (m.reverse ++ [h]) hx
  simp only [List.length_append, List.length_reverse, List.length_cons,
    List.length_nil] at hd ⊢
  omega

theorem not_ws_of_digit {c : Char} (h : isDigit09 c = true) : isWs c = false := by
  unfold isDigit09 at h
  unfold isWs
  simp at h ⊢
  omega

theorem not_ws_of_upper {c : Char} (h : isUpperAZ c = true) : isWs c = false := by
  unfold isUpperAZ at h
  unfold isWs
  simp at h ⊢
  omega

theorem shapeAscii_trim_ge {cand : Str}
    (hws : ∀ ch ∈ cand, isWs ch = true → ch = ' ' ∨ ch = '\n')
    (hcl : shapeAsciiClass cand = true)
    (hacc : 3 < utf8Len (trimChars cand)) :
    4 ≤ (trimChars cand).length := by
  have hascii : ∀ ch ∈ trimChars cand, ch.toNat < 128 :=
    fun ch hch => ascii_of_shapeAsciiClass hws hcl ch (mem_trimChars hch)
  rw [utf8Len_eq_length hascii] at hacc
  omega

theorem shapeChapter_trim_ge {cand : Str} (h : shapeChapter cand = true) :
    4 ≤ (trimChars cand).length := by
  unfold shapeChapter at h
  rw [Bool.and_eq_true, Bool.and_eq_true] at h
  obtain ⟨⟨hp, hw⟩, hd⟩ := h
  obtain ⟨after, hafter⟩ := prefixOfB_eq_true hp
  have hdrop : cand.drop 7 = after := by
    rw [hafter]
    have : ((r"Chapter").data).length = 7 := by decide
    rw [← this, List.drop_left]
  cases hdw : after.dropWhile isWs with
  | nil =>
    rw [hdrop, hdw] at hd
    simp at hd
  | cons d rest =>
    rw [hdrop, hdw] at hd
    have hd' : isDigit09 d = true := hd
    have hsplit : after = after.takeWhile isWs ++ d :: rest := by
      rw [← hdw, List.takeWhile_append_dropWhile]
    have hc : cand = 'C' :: (((r"hapter").data ++ after.takeWhile isWs) ++ d :: rest) := by
      conv_lhs => rw [hafter, hsplit]
      simp
    rw [hc]
    refine le_trans ?_ (trimChars_length_of_decomp (by decide) (not_ws_of_digit hd'))
    have h6 : ((r"hapter").data).length = 6 := by decide
    simp [List.length_append, h6]

theorem shapeTitleCase_trim_ge {cand : Str} (h : shapeTitleCase cand = true) :
    4 ≤ (trimChars cand).length := by
  cases cand with
  | nil => simp [shapeTitleCase] at h
  | cons u rest =>
    unfold shapeTitleCase at h
    simp only [Bool.and_eq_true] at h
    obtain ⟨⟨⟨hu, hl1⟩, hw⟩, hmatch⟩ := h
    cases hdw : (rest.dropWhile isLowerAZ).dropWhile isWs with
    | nil => rw [hdw] at hmatch; simp at hmatch
    | cons v rest2 =>
      rw [hdw] at hmatch
      have hv : isUpperAZ v = true := by
        simp only [Bool.and_eq_true] at hmatch
        exact hmatch.1
      have hsplit1 : rest = rest.takeWhile isLowerAZ ++ rest.dropWhile isLowerAZ :=
        (List.takeWhile_append_dropWhile _ _).symm
      have hsplit2 : rest.dropWhile isLowerAZ =
          (rest.dropWhile isLowerAZ).takeWhile isWs ++ v :: rest2 := by
        rw [← hdw, List.takeWhile_append_dropWhile]
      have hc : u :: rest = u :: ((rest.takeWhile isLowerAZ ++
          (rest.dropWhile isLowerAZ).takeWhile isWs) ++ v :: rest2) := by
        conv_lhs => rw [hsplit1, hsplit2]
        simp
      rw [hc]
      refine le_trans ?_
        (trimChars_length_of_decomp (not_ws_of_upper hu) (not_ws_of_upper hv))
      have h1 : 1 ≤ (rest.takeWhile isLowerAZ).length := by
        cases hne : rest.takeWhile isLowerAZ with
        | nil => rw [hne] at hl1; simp at hl1
        | cons _ _ => simp
      have h2 : 1 ≤ ((rest.dropWhile isLowerAZ).takeWhile isWs).length := by
        cases hne : (rest.dropWhile isLowerAZ).takeWhile isWs with
        | nil => rw [hne] at hw; simp at hw
        | cons _ _ => simp
      simp only [List.length_append]
      omega

theorem mem_pushHeadings_title {filename : Str} {caps : List Str}
    {acc : List ExtractedSection} {s : ExtractedSection}
    (hs : s ∈ pushHeadings filename caps acc) :
    s ∈ acc ∨ ∃ cand ∈ caps, s.section_title = trimChars cand ∧
      (utf8Len (trimChars cand) > 3 && utf8Len (trimChars cand) < 100) = true := by
  induction caps generalizing acc with
  | nil => exact Or.inl hs
  | cons c cs ih =>
    unfold pushHeadings at hs
    split_ifs at hs with hc
    · rcases ih hs with h | ⟨cand, hcand, ht, hg⟩
      · rcases List.mem_append.mp h with h | h
        · exact Or.inl h
        · rw [List.mem_singleton] at h
          refine Or.inr ⟨c, List.mem_cons_self c cs, ?_, hc⟩
          rw [h]
      · exact Or.inr ⟨cand, List.mem_cons_of_mem c hcand, ht, hg⟩
    · rcases ih hs with h | ⟨cand, hcand, ht, hg⟩
      · exact Or.inl h
      · exact Or.inr ⟨cand, List.mem_cons_of_mem c hcand, ht, hg⟩

/-- C7: every heading pushed by the extraction loop has a trimmed title
whose length in characters lies in `[4, 100)`.  The hypotheses record
what is true of every first-capture-group match of the five heading
regexes (`shapeAsciiClass`/`shapeChapter`/`shapeTitleCase` are the
character-class invariants of patterns 1/2/4, 3 and 5), and that the
source text comes from the normalizer, whose only whitespace characters
are `' '` and the `'\n'` of the page separators (see
`clean_extracted_text_ws` below). -/
theorem c7_heading_title_length (filename : Str) (caps : List Str)
    (hws : ∀ cand ∈ caps, ∀ ch ∈ cand, isWs ch = true → ch = ' ' ∨ ch = '\n')
    (hshape : ∀ cand ∈ caps, shapeAsciiClass cand = true ∨
      shapeChapter cand = true ∨ shapeTitleCase cand = true)
    (s : ExtractedSection) (hs : s ∈ pushHeadings filename caps []) :
    4 ≤ s.section_title.length ∧ s.section_title.length < 100 := by
  rcases mem_pushHeadings_title hs with h | ⟨cand, hcand, htitle, hguard⟩
  · simp at h
  · rw [Bool.and_eq_true] at hguard
    obtain ⟨h3, h100⟩ := hguard
    rw [decide_eq_true_eq] at h3 h100
    constructor
    · rw [htitle]
      rcases hshape cand hcand with hsh | hsh | hsh
      · exact shapeAscii_trim_ge (hws cand hcand) hsh h3
      · exact shapeChapter_trim_ge hsh
      · exact shapeTitleCase_trim_ge hsh
    · rw [htitle]
      calc (trimChars cand).length ≤ utf8Len (trimChars cand) :=
            length_le_utf8Len _
        _ < 100 := h100

/-- Witness for C7 on a concrete all-caps capture. -/
theorem c7_heading_title_length_witness :
    4 ≤ ((⟨(r"a.pdf").data, (r"TRAVEL TIPS").data, 1, 1⟩ :
      ExtractedSection).section_title).length ∧
    ((⟨(r"a.pdf").data, (r"TRAVEL TIPS").data, 1, 1⟩ :
      ExtractedSection).section_title).length < 100 :=
  c7_heading_title_length ((r"a.pdf").data) [(r"TRAVEL TIPS").data]
    (by decide) (by decide) _ (by decide)

theorem splitChar_ne_nil (sep : Char) (l : Str) : splitChar sep l ≠ [] := by
  cases l with
  | nil => simp [splitChar]
  | cons c rest =>
    unfold splitChar
    cases splitChar sep rest with
    | nil => split_ifs <;> simp
    | cons s ss => split_ifs <;> simp

theorem splitChar_of_not_mem {sep : Char} {l : Str} (h : sep ∉ l) :
    splitChar sep l = [l] := by
  induction l with
  | nil => rfl
  | cons c rest ih =>
    have hc : c ≠ sep := fun he => h (he ▸ List.mem_cons_self c rest)
    have hrest : sep ∉ rest := fun he => h (List.mem_cons_of_mem c he)
    unfold splitChar
    rw [ih hrest]
    simp [hc]

theorem not_mem_of_mem_splitChar {sep : Char} {l : Str} {part : Str}
    (hp : part ∈ splitChar sep l) : sep ∉ part := by
  induction l generalizing part with
  | nil =>
    simp [splitChar] at hp
    simp [hp]
  | cons c rest ih =>
    unfold splitChar at hp
    cases hsp : splitChar sep rest with
    | nil => exact absurd hsp (splitChar_ne_nil sep rest)
    | cons s ss =>
      rw [hsp] at hp
      split_ifs at hp with hc
      · rcases List.mem_cons.mp hp with rfl | hp2
        · simp
        · exact ih (hsp ▸ hp2)
      · rcases List.mem_cons.mp hp with rfl | hp2
        · intro hmem
          rcases List.mem_cons.mp hmem with rfl | hmem2
          · exact hc rfl
          · exact ih (hsp ▸ List.mem_cons_self s ss) hmem2
        · exact ih (hsp ▸ List.mem_cons_of_mem s hp2)

theorem splitChar_headIsPrefix {sep : Char} {l : Str} {s : Str} {ss : List Str}
    (h : splitChar sep l = s :: ss) : s <+: l := by
  induction l generalizing s ss with
  | nil =>
    simp [splitChar] at h
    rw [h.1]
  | cons c rest ih =>
    unfold splitChar at h
    cases hsp : splitChar sep rest with
    | nil => exact absurd hsp (splitChar_ne_nil sep rest)
    | cons s' ss' =>
      rw [hsp] at h
      split_ifs at h with hc
      · rw [List.cons.injEq] at h
        rw [← h.1]
        exact List.nil_prefix
      · rw [List.cons.injEq] at h
        obtain ⟨t, ht⟩ := ih hsp
        exact ⟨t, by rw [← h.1, List.cons_append, ht]⟩

theorem isInfixCons {l₁ l₂ : Str} {a : Char} (h : l₁ <:+: l₂) :
    l₁ <:+: a :: l₂ := by
  obtain ⟨s, t, ht⟩ := h
  exact ⟨a :: s, t, by rw [← ht]; rfl⟩

theorem mem_splitChar_isInfix {sep : Char} {l : Str} {part : Str}
    (hp : part ∈ splitChar sep l) : part <:+: l := by
  induction l generalizing part with
  | nil =>
    simp [splitChar] at hp
    simp [hp]
  | cons c rest ih =>
    unfold splitChar at hp
    cases hsp : splitChar sep rest with
    | nil => exact absurd hsp (splitChar_ne_nil sep rest)
    | cons s ss =>
      rw [hsp] at hp
      split_ifs at hp with hc
      · rcases List.mem_cons.mp hp with rfl | hp2
        · exact List.nil_infix
        · exact isInfixCons (ih (hsp ▸ hp2))
      · rcases List.mem_cons.mp hp with rfl | hp2
        · obtain ⟨t, ht⟩ := splitChar_headIsPrefix hsp
          exact ⟨[], t, by rw [List.nil_append, List.cons_append, ht]⟩
        · exact isInfixCons (ih (hsp ▸ List.mem_cons_of_mem s hp2))

theorem splitChar_cons (sep c : Char) (rest : Str) :
    splitChar sep (c :: rest) =
      match splitChar sep rest with
      | [] => if c = sep then [[], []] else [[c]]
      | s :: ss => if c = sep then [] :: s :: ss else (c :: s) :: ss := rfl

theorem splitChar_append_sep {sep : Char} {a : Str} (b : Str) (ha : sep ∉ a) :
    splitChar sep (a ++ sep :: b) = a :: splitChar sep b := by
  induction a with
  | nil =>
    rw [List.nil_append]
    cases hsp : splitChar sep b with
    | nil => exact absurd hsp (splitChar_ne_nil sep b)
    | cons s ss =>
      rw [splitChar_cons, hsp]
      simp
  | cons c a' ih =>
    have hc : c ≠ sep := fun he => ha (he ▸ List.mem_cons_self c a')
    have ha' : sep ∉ a' := fun he => ha (List.mem_cons_of_mem c he)
    rw [List.cons_append, splitChar_cons, ih ha']
    simp [hc]

theorem splitChar_concat_sep (sep : Char) (l : Str) :
    splitChar sep (l ++ [sep]) = splitChar sep l ++ [[]] := by
  induction l with
  | nil => simp [splitChar]
  | cons c rest ih =>
    rw [List.cons_append]
    unfold splitChar
    rw [ih]
    cases hsp : splitChar sep rest with
    | nil => exact absurd hsp (splitChar_ne_nil sep rest)
    | cons s ss => split_ifs <;> simp

theorem dropWhile_head_false {p : Char → Bool} {l : Str} {c : Char} {t : Str}
    (h : List.dropWhile p l = c :: t) : p c = false := by
  induction l with
  | nil => simp at h
  | cons a rest ih =>
    rw [List.dropWhile_cons] at h
    split_ifs at h with ha
    · exact ih h
    · rw [List.cons.injEq] at h
      rw [← h.1]
      exact Bool.not_eq_true _ ▸ (by simpa using ha)

theorem stripEnds_prefix_dropWhile (p : Char → Bool) (l : Str) :
    stripEnds p l <+: l.dropWhile p := by
  unfold stripEnds
  have h1 : ((l.dropWhile p).reverse.dropWhile p) <:+ (l.dropWhile p).reverse :=
    List.dropWhile_suffix p
  have h2 := List.reverse_prefix.mpr h1
  rwa [List.reverse_reverse] at h2

theorem trimChars_isInfix (l : Str) : trimChars l <:+: l :=
  ((stripEnds_prefix_dropWhile isWs l).isInfix).trans
    ((List.dropWhile_suffix isWs).isInfix)

theorem trimChars_head_not_ws {l : Str} {c : Char} {t : Str}
    (h : trimChars l = c :: t) : isWs c = false := by
  obtain ⟨u, hu⟩ := stripEnds_prefix_dropWhile isWs l
  unfold trimChars at h
  rw [h] at hu
  exact dropWhile_head_false hu.symm

theorem trimChars_getLast_not_ws {l : Str} {c : Char} {t : Str}
    (h : (trimChars l).reverse = c :: t) : isWs c = false := by
  unfold trimChars stripEnds at h
  rw [List.reverse_reverse] at h
  exact dropWhile_head_false h

theorem trimChars_eq_self {l : Str}
    (hh : ∀ c t, l = c :: t → isWs c = false)
    (hl : ∀ c t, l.reverse = c :: t → isWs c = false) :
    trimChars l = l := by
  unfold trimChars stripEnds
  have h1 : l.dropWhile isWs = l := by
    cases hc : l with
    | nil => rfl
    | cons c t => rw [List.dropWhile_cons, if_neg (by simp [hh c t hc])]
  rw [h1]
  have h2 : l.reverse.dropWhile isWs = l.reverse := by
    cases hc : l.reverse with
    | nil => rfl
    | cons c t => rw [List.dropWhile_cons, if_neg (by simp [hl c t hc])]
  rw [h2, List.reverse_reverse]

theorem trimChars_cons_space (q : Str) : trimChars (' ' :: q) = trimChars q := by
  unfold trimChars stripEnds
  rw [List.dropWhile_cons, if_pos (by decide)]

theorem collapseWsAux_true_cons (a : Char) (rest : Str) :
    collapseWsAux true (a :: rest) =
      if isWs a then collapseWsAux true rest
      else a :: collapseWsAux false rest := rfl

theorem collapseWsAux_false_cons (a : Char) (rest : Str) :
    collapseWsAux false (a :: rest) =
      if isWs a then ' ' :: collapseWsAux true rest
      else a :: collapseWsAux false rest := rfl

theorem collapseWsAux_wsSpace (b : Bool) (l : Str) :
    wsSpace (collapseWsAux b l) := by
  induction l generalizing b with
  | nil => intro c hc hw; simp [collapseWsAux] at hc
  | cons c rest ih =>
    intro x hx hwx
    cases b with
    | true =>
      rw [collapseWsAux_true_cons] at hx
      split_ifs at hx with h1
      · exact ih true x hx hwx
      · rcases List.mem_cons.mp hx with rfl | hx2
        · exact absurd hwx (by simp [h1])
        · exact ih false x hx2 hwx
    | false =>
      rw [collapseWsAux_false_cons] at hx
      split_ifs at hx with h1
      · rcases List.mem_cons.mp hx with rfl | hx2
        · rfl
        · exact ih true x hx2 hwx
      · rcases List.mem_cons.mp hx with rfl | hx2
        · exact absurd hwx (by simp [h1])
        · exact ih false x hx2 hwx

theorem collapseWsAux_true_head {l : Str} {c : Char} {t : Str}
    (h : collapseWsAux true l = c :: t) : isWs c = false := by
  induction l generalizing t with
  | nil => simp [collapseWsAux] at h
  | cons a rest ih =>
    rw [collapseWsAux_true_cons] at h
    split_ifs at h with h1
    · exact ih h
    · rw [List.cons.injEq] at h
      rw [← h.1]
      simpa using h1

theorem collapseWsAux_chain (b : Bool) (l : Str) :
    noAdjWs (collapseWsAux b l) := by
  induction l generalizing b with
  | nil => simp [collapseWsAux]
  | cons c rest ih =>
    cases b with
    | true =>
      rw [collapseWsAux_true_cons]
      split_ifs with h1
      · exact ih true
      · refine List.chain'_cons'.mpr ⟨?_, ih false⟩
        intro y hy hcon
        exact absurd hcon.1 (by simp [h1])
    | false =>
      rw [collapseWsAux_false_cons]
      split_ifs with h1
      · refine List.chain'_cons'.mpr ⟨?_, ih true⟩
        intro y hy hcon
        cases hh : collapseWsAux true rest with
        | nil => rw [hh] at hy; simp at hy
        | cons z t =>
          rw [hh] at hy
          simp at hy
          rw [← hy] at hcon
          exact absurd hcon.2 (by simp [collapseWsAux_true_head hh])
      · refine List.chain'_cons'.mpr ⟨?_, ih false⟩
        intro y hy hcon
        exact absurd hcon.1 (by simp [h1])

theorem collapseWsAux_fix (l : Str) (hs : wsSpace l) (hc : noAdjWs l) :
    collapseWsAux false l = l ∧
    ((∀ c t, l = c :: t → isWs c = false) → collapseWsAux true l = l) := by
  induction l with
  | nil => exact ⟨rfl, fun _ => rfl⟩
  | cons c rest ih =>
    have hs' : wsSpace rest := fun x hx => hs x (List.mem_cons_of_mem c hx)
    have hc' : noAdjWs rest := (List.chain'_cons'.mp hc).2
    obtain ⟨ih1, ih2⟩ := ih hs' hc'
    have hhead : isWs c = true → ∀ x t, rest = x :: t → isWs x = false := by
      intro h1 x t hxt
      have hall := (List.chain'_cons'.mp hc).1
      have hx := hall x (by rw [hxt]; rfl)
      by_contra hcon
      rw [Bool.not_eq_false] at hcon
      exact hx ⟨h1, hcon⟩
    constructor
    · rw [collapseWsAux_false_cons]
      split_ifs with h1
      · have hcsp : c = ' ' := hs c (List.mem_cons_self c rest) h1
        rw [ih2 (hhead h1), hcsp]
      · rw [ih1]
    · intro hh
      rw [collapseWsAux_true_cons, if_neg (by simp [hh c rest rfl]), ih1]

theorem collapseWs_fix {l : Str} (hs : wsSpace l) (hc : noAdjWs l) :
    collapseWs l = l :=
  (collapseWsAux_fix l hs hc).1

theorem mem_joinSep {sep : Str} {P : List Str} {c : Char}
    (hc : c ∈ joinSep sep P) : c ∈ sep ∨ ∃ p ∈ P, c ∈ p := by
  induction P with
  | nil => simp [joinSep] at hc
  | cons p P' ih =>
    cases P' with
    | nil => exact Or.inr ⟨p, List.mem_cons_self p [], hc⟩
    | cons q rest =>
      rcases List.mem_append.mp hc with h | h
      · rcases List.mem_append.mp h with h | h
        · exact Or.inr ⟨p, List.mem_cons_self _ _, h⟩
        · exact Or.inl h
      · rcases ih h with h | ⟨x, hx, hcx⟩
        · exact Or.inl h
        · exact Or.inr ⟨x, List.mem_cons_of_mem p hx, hcx⟩

theorem head?_joinSep (sep p : Str) (P' : List Str) (hp : p ≠ []) :
    (joinSep sep (p :: P')).head? = p.head? := by
  cases P' with
  | nil => rfl
  | cons q rest =>
    show ((p ++ sep) ++ joinSep sep (q :: rest)).head? = p.head?
    rw [List.head?_append_of_ne_nil _ (by simp [hp]),
      List.head?_append_of_ne_nil _ hp]

theorem mem_of_getLast?_eq {α : Type} {l : List α} {a : α}
    (h : l.getLast? = some a) : a ∈ l := by
  rw [List.getLast?_eq_head?_reverse] at h
  cases hrev : l.reverse with
  | nil => rw [hrev] at h; simp at h
  | cons b t =>
    rw [hrev] at h
    simp at h
    rw [← List.mem_reverse, hrev, h]
    exact List.mem_cons_self _ _

theorem getLast?_joinSep (sep : Str) (P : List Str) (q : Str)
    (hq : P.getLast? = some q) (hall : ∀ p ∈ P, p ≠ []) :
    (joinSep sep P).getLast? = q.getLast? := by
  induction P with
  | nil => simp at hq
  | cons p P' ih =>
    cases P' with
    | nil =>
      simp at hq
      show p.getLast? = q.getLast?
      rw [hq]
    | cons r rest =>
      have hall' : ∀ x ∈ r :: rest, x ≠ [] :=
        fun x hx => hall x (List.mem_cons_of_mem p hx)
      have hq' : (r :: rest).getLast? = some q := by
        rw [← hq, List.getLast?_cons_cons]
      have hrne : r ≠ [] := hall' r (List.mem_cons_self r rest)
      have hne : joinSep sep (r :: rest) ≠ [] := by
        intro hj
        have hh := head?_joinSep sep r rest hrne
        rw [hj] at hh
        cases hr2 : r with
        | nil => exact hrne hr2
        | cons a t => rw [hr2] at hh; simp at hh
      show ((p ++ sep) ++ joinSep sep (r :: rest)).getLast? = q.getLast?
      rw [List.getLast?_append_of_ne_nil _ hne]
      exact ih hq' hall'

theorem wsSpace_joinSep {P : List Str} (h : ∀ p ∈ P, wsSpace p) :
    wsSpace (joinSep ((r". ").data) P) := by
  intro c hc hw
  rcases mem_joinSep hc with hsep | ⟨p, hp, hcp⟩
  · simp at hsep
    rcases hsep with rfl | rfl
    · exact absurd hw (by decide)
    · rfl
  · exact h p hp c hcp hw

theorem no_newline_of_wsSpace {l : Str} (h : wsSpace l) :
    '\n' ∉ l ∧ '\r' ∉ l := by
  constructor <;> intro hm
  · have := h _ hm (by decide)
    exact absurd this (by decide)
  · have := h _ hm (by decide)
    exact absurd this (by decide)

theorem joinSep_head_not_ws (p : Str) (P' : List Str) (hp : p ≠ [])
    (h3p : ∀ c t, p = c :: t → isWs c = false) :
    ∀ c t, joinSep ((r". ").data) (p :: P') = c :: t → isWs c = false := by
  intro c t hJ
  have hh := head?_joinSep ((r". ").data) p P' hp
  rw [hJ] at hh
  cases hp2 : p with
  | nil => exact absurd hp2 hp
  | cons a t' =>
    rw [hp2] at hh
    simp at hh
    rw [hh]
    exact h3p a t' hp2

theorem chain'_joinSep {P : List Str}
    (hne : ∀ p ∈ P, p ≠ [])
    (hhead : ∀ p ∈ P, ∀ c t, p = c :: t → isWs c = false)
    (hchain : ∀ p ∈ P, noAdjWs p) :
    noAdjWs (joinSep ((r". ").data) P) := by
  induction P with
  | nil => simp [joinSep]
  | cons p P' ih =>
    cases P' with
    | nil => exact hchain p (List.mem_cons_self p [])
    | cons q rest =>
      have hne' : ∀ x ∈ q :: rest, x ≠ [] :=
        fun x hx => hne x (List.mem_cons_of_mem p hx)
      have hhead' : ∀ x ∈ q :: rest, ∀ c t, x = c :: t → isWs c = false :=
        fun x hx => hhead x (List.mem_cons_of_mem p hx)
      have hchain' : ∀ x ∈ q :: rest, noAdjWs x :=
        fun x hx => hchain x (List.mem_cons_of_mem p hx)
      have hdotspace : noAdjWs ((r". ").data) := by
        show List.Chain' _ ('.' :: [' '])
        refine List.chain'_cons.mpr ⟨?_, List.chain'_singleton _⟩
        intro hcon
        exact absurd hcon.1 (by decide)
      show noAdjWs ((p ++ ((r". ").data)) ++ joinSep ((r". ").data) (q :: rest))
      refine List.Chain'.append ?_ (ih hne' hhead' hchain') ?_
      · refine List.Chain'.append (hchain p (List.mem_cons_self _ _))
          hdotspace ?_
        intro x hx y hy
        have hy2 : '.' = y := by
          have hhd : ((r". ").data).head? = some '.' := rfl
          rw [hhd] at hy
          simpa using hy
        rw [← hy2]
        intro hcon
        exact absurd hcon.2 (by decide)
      · intro x hx y hy
        have hxl : ' ' = x := by
          rw [List.getLast?_append_of_ne_nil _ (by decide),
            show ((r". ").data).getLast? = some ' ' from rfl] at hx
          simpa using hx
        have hqne := hne' q (List.mem_cons_self q rest)
        rw [head?_joinSep ((r". ").data) q rest hqne] at hy
        cases hq2 : q with
        | nil => exact absurd hq2 hqne
        | cons a t' =>
          rw [hq2] at hy
          simp at hy
          rw [← hxl, ← hy]
          intro hcon
          exact absurd hcon.2 (by simp [hhead' q (List.mem_cons_self q rest) a t' hq2])

theorem splitChar_joinSep (p : Str) (P' : List Str)
    (h2 : ∀ x ∈ p :: P', '.' ∉ x) :
    splitChar '.' (joinSep ((r". ").data) (p :: P')) =
      p :: P'.map (fun q => ' ' :: q) := by
  induction P' generalizing p with
  | nil => exact splitChar_of_not_mem (h2 p (List.mem_cons_self p []))
  | cons q rest ih =>
    have hassoc : (p ++ ((r". ").data)) ++ joinSep ((r". ").data) (q :: rest) =
        p ++ '.' :: (' ' :: joinSep ((r". ").data) (q :: rest)) := by
      simp
    show splitChar '.' ((p ++ ((r". ").data)) ++ joinSep ((r". ").data) (q :: rest)) = _
    rw [hassoc, splitChar_append_sep _ (h2 p (List.mem_cons_self _ _))]
    rw [splitChar_cons]
    have hih := ih q (fun x hx => h2 x (List.mem_cons_of_mem p hx))
    rw [hih]
    simp

theorem linesChars_of_clean_shape {x : Str} (hx : x ≠ [])
    (hnl : '\n' ∉ x) (hcr : '\r' ∉ x) : linesChars x = [x] := by
  unfold linesChars
  rw [splitChar_of_not_mem hnl]
  have h1 : x.getLast? ≠ some '\r' := by
    intro hg
    exact hcr (mem_of_getLast?_eq hg)
  simp [hx, h1]

theorem clean_eq (raw : Str) :
    clean_extracted_text raw = joinSep ((r". ").data) (partsOf raw) ++
      (if (normalizedOf raw).getLast? = some '.' then [] else ['.']) := rfl

theorem partsOf_spec {raw : Str} {p : Str} (hp : p ∈ partsOf raw) :
    p ≠ [] ∧ ∃ seg ∈ splitChar '.' (normalizedOf raw), p = trimChars seg := by
  unfold partsOf at hp
  rw [List.mem_filter] at hp
  obtain ⟨hmem, hne⟩ := hp
  rw [List.mem_map] at hmem
  obtain ⟨seg, hseg, hps⟩ := hmem
  exact ⟨by simpa using hne, seg, hseg, hps.symm⟩

theorem partsOf_props {raw : Str} {p : Str} (hp : p ∈ partsOf raw) :
    p ≠ [] ∧ ('.' ∉ p) ∧
      (∀ c t, p = c :: t → isWs c = false) ∧
      (∀ c t, p.reverse = c :: t → isWs c = false) ∧
      wsSpace p ∧ noAdjWs p := by
  obtain ⟨hne, seg, hseg, rfl⟩ := partsOf_spec hp
  refine ⟨hne, ?_, fun c t h => trimChars_head_not_ws h,
    fun c t h => trimChars_getLast_not_ws h, ?_, ?_⟩
  · intro hdot
    exact not_mem_of_mem_splitChar hseg (mem_trimChars hdot)
  · intro c hc hw
    exact collapseWsAux_wsSpace false (cleanedOf raw) c
      ((mem_splitChar_isInfix hseg).sublist.mem (mem_trimChars hc)) hw
  · exact List.Chain'.infix (collapseWsAux_chain false (cleanedOf raw))
      ((trimChars_isInfix seg).trans (mem_splitChar_isInfix hseg))

/-- Whitespace in a normalizer output is always a plain space: the
`\s+ → " "` collapse leaves `' '` as the only whitespace character. -/
theorem clean_extracted_text_ws (raw : Str) :
    wsSpace (clean_extracted_text raw) := by
  rw [clean_eq]
  intro c hc hw
  rcases List.mem_append.mp hc with h | h
  · exact wsSpace_joinSep (fun p hp => (partsOf_props hp).2.2.2.2.1) c h hw
  · split_ifs at h
    · simp at h
    · simp at h
      rw [h] at hw
      exact absurd hw (by decide)

theorem joinSep_singleton (sep x : Str) : joinSep sep [x] = x := rfl

theorem map_trim_resplit (p : Str) (P' : List Str)
    (h3 : ∀ x ∈ p :: P', ∀ c t, x = c :: t → isWs c = false)
    (h4 : ∀ x ∈ p :: P', ∀ c t, x.reverse = c :: t → isWs c = false) :
    (p :: P'.map (fun q => ' ' :: q)).map trimChars = p :: P' := by
  rw [List.map_cons]
  congr 1
  · exact trimChars_eq_self (h3 p (List.mem_cons_self _ _))
      (h4 p (List.mem_cons_self _ _))
  · rw [List.map_map]
    have hval : ∀ x ∈ P', (trimChars ∘ fun q => ' ' :: q) x = id x := by
      intro x hx
      show trimChars (' ' :: x) = x
      rw [trimChars_cons_space]
      exact trimChars_eq_self (h3 x (List.mem_cons_of_mem _ hx))
        (h4 x (List.mem_cons_of_mem _ hx))
    rw [List.map_congr_left hval, List.map_id]

theorem clean_joinSep_toggle (p : Str) (P' : List Str)
    (h1 : ∀ x ∈ p :: P', x ≠ []) (h2 : ∀ x ∈ p :: P', '.' ∉ x)
    (h3 : ∀ x ∈ p :: P', ∀ c t, x = c :: t → isWs c = false)
    (h4 : ∀ x ∈ p :: P', ∀ c t, x.reverse = c :: t → isWs c = false)
    (h5 : ∀ x ∈ p :: P', wsSpace x) (h6 : ∀ x ∈ p :: P', noAdjWs x) :
    clean_extracted_text (joinSep ((r". ").data) (p :: P')) =
      joinSep ((r". ").data) (p :: P') ++ ['.'] ∧
    clean_extracted_text (joinSep ((r". ").data) (p :: P') ++ ['.']) =
      joinSep ((r". ").data) (p :: P') := by
  set J := joinSep ((r". ").data) (p :: P') with hJdef
  have hp : p ≠ [] := h1 p (List.mem_cons_self _ _)
  have hJws : wsSpace J := wsSpace_joinSep h5
  have hJnl := no_newline_of_wsSpace hJws
  have hJne : J ≠ [] := by
    intro hj
    have hh := head?_joinSep ((r". ").data) p P' hp
    rw [← hJdef, hj] at hh
    cases hp2 : p with
    | nil => exact hp hp2
    | cons a t => rw [hp2] at hh; simp at hh
  have hJhead : ∀ c t, J = c :: t → isWs c = false := by
    rw [hJdef]
    exact joinSep_head_not_ws p P' hp (h3 p (List.mem_cons_self _ _))
  have hql : (p :: P').getLast? = some ((p :: P').getLast (by simp)) :=
    List.getLast?_eq_getLast _ _
  have hqmem : (p :: P').getLast (by simp) ∈ p :: P' := mem_of_getLast?_eq hql
  have hJlast_val : J.getLast? = ((p :: P').getLast (by simp)).getLast? := by
    rw [hJdef]
    exact getLast?_joinSep _ _ _ hql h1
  have hJlast_ws : ∀ c t, J.reverse = c :: t → isWs c = false := by
    intro c t hct
    have hg : J.getLast? = some c := by
      rw [List.getLast?_eq_head?_reverse, hct]
      rfl
    rw [hJlast_val] at hg
    have hrev : ((p :: P').getLast (by simp)).reverse.head? = some c := by
      rw [List.head?_reverse]
      exact hg
    cases hr : ((p :: P').getLast (by simp)).reverse with
    | nil => rw [hr] at hrev; simp at hrev
    | cons b t' =>
      rw [hr] at hrev
      simp at hrev
      rw [← hrev]
      exact h4 _ hqmem b t' hr
  have hJlast_ne_dot : ¬(J.getLast? = some '.') := by
    intro hg
    rw [hJlast_val] at hg
    exact h2 _ hqmem (mem_of_getLast?_eq hg)
  have hJtrim : trimChars J = J := trimChars_eq_self hJhead hJlast_ws
  have hJchain : noAdjWs J := chain'_joinSep h1 h3 h6
  have hJcollapse : collapseWs J = J := collapseWs_fix hJws hJchain
  have hcleaned : cleanedOf J = J := by
    unfold cleanedOf
    rw [linesChars_of_clean_shape hJne hJnl.1 hJnl.2]
    simp [hJtrim, hJne, joinSep_singleton]
  have hnorm : normalizedOf J = J := by
    unfold normalizedOf
    rw [hcleaned]
    exact hJcollapse
  have hfil : List.filter (fun l => !l.isEmpty) (p :: P') = p :: P' := by
    rw [List.filter_eq_self]
    intro x hx
    simp [h1 x hx]
  have hparts : partsOf J = p :: P' := by
    unfold partsOf
    rw [hnorm, hJdef, splitChar_joinSep p P' h2, map_trim_resplit p P' h3 h4, hfil]
  have hne2 : J ++ ['.'] ≠ [] := by simp
  have hws2 : wsSpace (J ++ ['.']) := by
    intro c hc hw
    rcases List.mem_append.mp hc with h | h
    · exact hJws c h hw
    · simp at h
      rw [h] at hw
      exact absurd hw (by decide)
  have hnl2 := no_newline_of_wsSpace hws2
  have htrim2 : trimChars (J ++ ['.']) = J ++ ['.'] := by
    apply trimChars_eq_self
    · intro c t hct
      cases hp2 : J with
      | nil => exact absurd hp2 hJne
      | cons a t' =>
        rw [hp2, List.cons_append, List.cons.injEq] at hct
        rw [← hct.1]
        exact hJhead a t' hp2
    · intro c t hct
      have : (J ++ ['.']).reverse = '.' :: J.reverse := by simp
      rw [this, List.cons.injEq] at hct
      rw [← hct.1]
      decide
  have hchain2 : noAdjWs (J ++ ['.']) := by
    refine List.Chain'.append hJchain (List.chain'_singleton _) ?_
    intro x hx y hy
    simp at hy
    rw [← hy]
    intro hcon
    exact absurd hcon.2 (by decide)
  have hcollapse2 : collapseWs (J ++ ['.']) = J ++ ['.'] :=
    collapseWs_fix hws2 hchain2
  have hcleaned2 : cleanedOf (J ++ ['.']) = J ++ ['.'] := by
    unfold cleanedOf
    rw [linesChars_of_clean_shape hne2 hnl2.1 hnl2.2]
    simp [htrim2, joinSep_singleton]
  have hnorm2 : normalizedOf (J ++ ['.']) = J ++ ['.'] := by
    unfold normalizedOf
    rw [hcleaned2]
    exact hcollapse2
  have hparts2 : partsOf (J ++ ['.']) = p :: P' := by
    unfold partsOf
    rw [hnorm2, hJdef, splitChar_concat_sep, splitChar_joinSep p P' h2]
    rw [List.map_append, List.filter_append, map_trim_resplit p P' h3 h4, hfil]
    simp [trimChars, stripEnds]
  constructor
  · rw [clean_eq, hparts, hnorm, if_neg hJlast_ne_dot, ← hJdef]
  · rw [clean_eq, hparts2, hnorm2, ← hJdef]
    rw [if_pos (List.getLast?_concat _)]
    simp

/-- C6 (amended): the normalizer is not idempotent — it toggles a
trailing period — but it is 2-periodic from the first application:
applying `clean_extracted_text` three times equals applying it once. -/
theorem c6_amended (s : Str) :
    clean_extracted_text (clean_extracted_text (clean_extracted_text s)) =
      clean_extracted_text s := by
  rw [clean_eq s]
  cases hP : partsOf s with
  | nil =>
    simp only [joinSep]
    split_ifs with hdot
    · simp only [List.nil_append]
      decide
    · simp only [List.nil_append]
      decide
  | cons p P' =>
    have h1 : ∀ x ∈ p :: P', x ≠ [] :=
      fun x hx => (partsOf_props (by rw [hP]; exact hx)).1
    have h2 : ∀ x ∈ p :: P', '.' ∉ x :=
      fun x hx => (partsOf_props (by rw [hP]; exact hx)).2.1
    have h3 : ∀ x ∈ p :: P', ∀ c t, x = c :: t → isWs c = false :=
      fun x hx => (partsOf_props (by rw [hP]; exact hx)).2.2.1
    have h4 : ∀ x ∈ p :: P', ∀ c t, x.reverse = c :: t → isWs c = false :=
      fun x hx => (partsOf_props (by rw [hP]; exact hx)).2.2.2.1
    have h5 : ∀ x ∈ p :: P', wsSpace x :=
      fun x hx => (partsOf_props (by rw [hP]; exact hx)).2.2.2.2.1
    have h6 : ∀ x ∈ p :: P', noAdjWs x :=
      fun x hx => (partsOf_props (by rw [hP]; exact hx)).2.2.2.2.2
    obtain ⟨ht1, ht2⟩ := clean_joinSep_toggle p P' h1 h2 h3 h4 h5 h6
    split_ifs with hdot
    · simp only [List.append_nil]
      rw [ht1, ht2]
    · rw [ht2, ht1]
